import Mathlib

/-!
# Intrusive lists and hash chains of `caches-queues-lists.h`

A shallow embedding of the four code-generating macros of
`squashfs-tools/caches-queues-lists.h`

* `INSERT_LIST(NAME, TYPE)` / `REMOVE_LIST(NAME, TYPE)`: a circular
  doubly-linked list addressed by a head pointer,
* `INSERT_HASH_TABLE(NAME, TYPE, HASH_FUNCTION, FIELD)` /
  `REMOVE_HASH_TABLE(...)`: a table of 65536 doubly-linked collision chains,

of their instances on `struct file_buffer` in a cache (freelist and index hash
table on the same buffers), and of the bounded queue and the sequencing queue
as the specification describes them, together with the properties the
specification states about them.

Memory is modelled field by field: a struct field `f` of the objects of a
type is a map from object addresses to the value the field holds.  A pointer
is `Option Nat`, `none` being `NULL`.  Each C assignment becomes one update of
the corresponding field map, in the order of the source, and every read is
made in the memory the preceding assignments produced.
-/

namespace Sasquatch

/-- A C pointer to an object: `none` is `NULL`, `some a` the object at address `a`. -/
abbrev Ptr := Option Nat

/-! ## The Link Toolkit: `INSERT_LIST` and `REMOVE_LIST` -/

/-- The memory the functions generated by `INSERT_LIST(NAME, TYPE)` and
`REMOVE_LIST(NAME, TYPE)` read and write: the list head `*list` and the
fields `NAME_next` and `NAME_prev` of every object of type `TYPE`. -/
structure LinkList where
  /-- The value of `*list`. -/
  head : Ptr
  /-- The field `NAME_next` of each object. -/
  next : Nat → Ptr
  /-- The field `NAME_prev` of each object. -/
  prev : Nat → Ptr

/-- The function `insert_NAME_list(TYPE **list, TYPE *entry)` generated by
`INSERT_LIST`.  The result is `none` when the C code dereferences `NULL`
(in `(*list)->NAME_prev->NAME_next = entry`). -/
def insert_NAME_list (s : LinkList) (entry : Nat) : Option LinkList :=
  match s.head with
  | some l =>
    -- entry->NAME_next = *list;
    let next1 := Function.update s.next entry (some l)
    -- entry->NAME_prev = (*list)->NAME_prev;
    let prev1 := Function.update s.prev entry (s.prev l)
    -- (*list)->NAME_prev->NAME_next = entry;
    match prev1 l with
    | none => none
    | some p =>
      let next2 := Function.update next1 p (some entry)
      -- (*list)->NAME_prev = entry;
      let prev2 := Function.update prev1 l (some entry)
      some { head := some l, next := next2, prev := prev2 }
  | none =>
    -- *list = entry;
    -- entry->NAME_prev = entry->NAME_next = entry;
    let next1 := Function.update s.next entry (some entry)
    let prev1 := Function.update s.prev entry (next1 entry)
    some { head := some entry, next := next1, prev := prev1 }

/-- The function `remove_NAME_list(TYPE **list, TYPE *entry)` generated by
`REMOVE_LIST`.  No pointer other than `entry` is dereferenced without a
preceding `NULL` test, so the function is total. -/
def remove_NAME_list (s : LinkList) (entry : Nat) : LinkList :=
  let s1 : LinkList :=
    if s.prev entry = some entry ∧ s.next entry = some entry then
      -- only this entry in the list: *list = NULL;
      { s with head := none }
    else
      match s.prev entry, s.next entry with
      | some _, some n =>
        -- more than one entry in the list
        -- entry->NAME_next->NAME_prev = entry->NAME_prev;
        let prev1 := Function.update s.prev n (s.prev entry)
        -- entry->NAME_prev->NAME_next = entry->NAME_next;
        let next1 :=
          match prev1 entry with
          | some p => Function.update s.next p (s.next entry)
          | none => s.next
        -- if(*list == entry) *list = entry->NAME_next;
        let head1 := if s.head = some entry then next1 entry else s.head
        { head := head1, next := next1, prev := prev1 }
      | _, _ => s
  -- entry->NAME_prev = entry->NAME_next = NULL;
  let next2 := Function.update s1.next entry none
  let prev2 := Function.update s1.prev entry (next2 entry)
  { head := s1.head, next := next2, prev := prev2 }

/-! ### Reading a list: traversal, membership, well-formedness -/

/-- Follow `next` from `cur`, collecting the objects met, until the link leads
back to `stop` (or is `NULL`), for at most `fuel` objects. -/
def walk (next : Nat → Ptr) (stop : Nat) : Nat → Nat → List Nat
  | 0, _ => []
  | fuel + 1, cur =>
    cur :: (match next cur with
      | some n => if n = stop then [] else walk next stop fuel n
      | none => [])

/-- The forward (`NAME_next`) traversal of the list from its head, once round
the cycle, visiting at most `fuel` objects. -/
def traverse (s : LinkList) (fuel : Nat) : List Nat :=
  match s.head with
  | none => []
  | some h => walk s.next h fuel h

/-- An object is a member of the list when the forward traversal from the
head reaches it. -/
def Member (s : LinkList) (e : Nat) : Prop := ∃ fuel, e ∈ traverse s fuel

/-- The objects `a, l₀, l₁, …, b` are linked in this order: each one's `next`
is its successor and each one's `prev` its predecessor. -/
def Linked (next prev : Nat → Ptr) : Nat → List Nat → Nat → Prop
  | a, [], b => next a = some b ∧ prev b = some a
  | a, x :: xs, b => next a = some x ∧ prev x = some a ∧ Linked next prev x xs b

instance Linked.decide (next prev : Nat → Ptr) :
    (a : Nat) → (l : List Nat) → (b : Nat) → Decidable (Linked next prev a l b)
  | a, [], b => by unfold Linked; exact inferInstance
  | a, x :: xs, b => by
    unfold Linked
    have := Linked.decide next prev x xs b
    exact inferInstance

/-- The list `s` is well formed with members `l` (in traversal order): it is
empty with a `NULL` head, or the head is the first member and the members are
distinct objects linked into one cycle that closes at the head. -/
def WellFormed (s : LinkList) : List Nat → Prop
  | [] => s.head = none
  | h :: t => s.head = some h ∧ (h :: t).Nodup ∧ Linked s.next s.prev h t h

instance WellFormed.decide (s : LinkList) : (l : List Nat) → Decidable (WellFormed s l)
  | [] => by unfold WellFormed; exact inferInstance
  | h :: t => by unfold WellFormed; exact inferInstance

/-- One call of the Link Toolkit. -/
inductive ListOp where
  /-- The call `insert_NAME_list(&list, entry)`. -/
  | insert (entry : Nat)
  /-- The call `remove_NAME_list(&list, entry)`. -/
  | remove (entry : Nat)

/-- Run a sequence of Link Toolkit calls, first call first; `none` when one of
them dereferences `NULL`. -/
def runOps : LinkList → List ListOp → Option LinkList
  | s, [] => some s
  | s, ListOp.insert e :: ops =>
    match insert_NAME_list s e with
    | some s1 => runOps s1 ops
    | none => none
  | s, ListOp.remove e :: ops => runOps (remove_NAME_list s e) ops

/-- A sequence of calls respects the toolkit's contract from the list `s` on:
every insert is of an object that is not a member at the time of the call,
every remove of an object that is. -/
def Admissible : LinkList → List ListOp → Prop
  | _, [] => True
  | s, ListOp.insert e :: ops =>
    ¬ Member s e ∧ ∀ s1, insert_NAME_list s e = some s1 → Admissible s1 ops
  | s, ListOp.remove e :: ops => Member s e ∧ Admissible (remove_NAME_list s e) ops

/-- List integrity: the list is empty, or it is a single finite cycle from the
head (the distinct objects `l`, the head first) and every member `e` satisfies
`e.next.prev == e` and `e.prev.next == e`. -/
def Integrity (s : LinkList) : Prop :=
  s.head = none ∨
  ∃ l, l ≠ [] ∧ WellFormed s l ∧ (∀ e, Member s e ↔ e ∈ l) ∧
    ∀ e, Member s e →
      (∃ n, s.next e = some n ∧ s.prev n = some e) ∧
      (∃ p, s.prev e = some p ∧ s.next p = some e)

/-! ## The Index Hash-Chain Toolkit: `INSERT_HASH_TABLE` and `REMOVE_HASH_TABLE` -/

/-- The index of a bucket of `hash_table[65536]`. -/
abbrev Bucket := Fin 65536

/-- The memory the functions generated by `INSERT_HASH_TABLE` and
`REMOVE_HASH_TABLE` read and write: the array `container->hash_table`, and the
fields `hash_next`, `hash_prev` and `FIELD` (the key: `index` or `sequence`, a
`long long`) of every `struct file_buffer`. -/
structure HashTable where
  /-- The array `container->hash_table`. -/
  hash_table : Bucket → Ptr
  /-- The field `hash_next` of each buffer. -/
  hash_next : Nat → Ptr
  /-- The field `hash_prev` of each buffer. -/
  hash_prev : Nat → Ptr
  /-- The field `FIELD` of each buffer. -/
  key : Nat → Int

/-- The function `insert_NAME_hash_table(TYPE *container, struct file_buffer *entry)`
generated by `INSERT_HASH_TABLE`; the macro argument `HASH_FUNCTION` is the
parameter `hash`. -/
def insert_NAME_hash_table (hash : Int → Bucket) (c : HashTable) (entry : Nat) :
    HashTable :=
  -- int hash = HASH_FUNCTION(entry->FIELD);
  let h := hash (c.key entry)
  -- entry->hash_next = container->hash_table[hash];
  let next1 := Function.update c.hash_next entry (c.hash_table h)
  -- container->hash_table[hash] = entry;
  let table1 := Function.update c.hash_table h (some entry)
  -- entry->hash_prev = NULL;
  let prev1 := Function.update c.hash_prev entry none
  -- if(entry->hash_next) entry->hash_next->hash_prev = entry;
  let prev2 :=
    match next1 entry with
    | some n => Function.update prev1 n (some entry)
    | none => prev1
  { hash_table := table1, hash_next := next1, hash_prev := prev2, key := c.key }

/-- The function `remove_NAME_hash_table(TYPE *container, struct file_buffer *entry)`
generated by `REMOVE_HASH_TABLE`; the macro argument `HASH_FUNCTION` is the
parameter `hash`. -/
def remove_NAME_hash_table (hash : Int → Bucket) (c : HashTable) (entry : Nat) :
    HashTable :=
  -- if(entry->hash_prev) entry->hash_prev->hash_next = entry->hash_next;
  -- else container->hash_table[HASH_FUNCTION(entry->FIELD)] = entry->hash_next;
  let c1 : HashTable :=
    match c.hash_prev entry with
    | some p => { c with hash_next := Function.update c.hash_next p (c.hash_next entry) }
    | none =>
      { c with hash_table :=
          Function.update c.hash_table (hash (c.key entry)) (c.hash_next entry) }
  -- if(entry->hash_next) entry->hash_next->hash_prev = entry->hash_prev;
  let prev1 :=
    match c1.hash_next entry with
    | some n => Function.update c1.hash_prev n (c1.hash_prev entry)
    | none => c1.hash_prev
  -- entry->hash_prev = entry->hash_next = NULL;
  let next2 := Function.update c1.hash_next entry none
  let prev2 := Function.update prev1 entry (next2 entry)
  { hash_table := c1.hash_table, hash_next := next2, hash_prev := prev2, key := c1.key }

/-! ### Reading a table: chains and well-formedness -/

/-- The chain walk of one bucket: follow `hash_next` from `start` to `NULL`,
collecting the buffers met, for at most `fuel` buffers. -/
def chain_walk (hash_next : Nat → Ptr) : Nat → Ptr → List Nat
  | 0, _ => []
  | _ + 1, none => []
  | fuel + 1, some e => e :: chain_walk hash_next fuel (hash_next e)

/-- The chain of bucket `b`, walked for at most `fuel` buffers. -/
def bucket_chain (c : HashTable) (fuel : Nat) (b : Bucket) : List Nat :=
  chain_walk c.hash_next fuel (c.hash_table b)

/-- The pointer `start` begins the chain of buffers `l`, whose first buffer has
`hash_prev == p`, each later buffer has `hash_prev` pointing to the buffer
before it, and whose last buffer has `hash_next == NULL`. -/
def IsChain (hash_next hash_prev : Nat → Ptr) : Ptr → Ptr → List Nat → Prop
  | _, start, [] => start = none
  | p, start, x :: xs =>
    start = some x ∧ hash_prev x = p ∧ IsChain hash_next hash_prev (some x) (hash_next x) xs

instance IsChain.decide (hash_next hash_prev : Nat → Ptr) :
    (p start : Ptr) → (l : List Nat) → Decidable (IsChain hash_next hash_prev p start l)
  | _, _, [] => by unfold IsChain; exact inferInstance
  | p, start, x :: xs => by
    unfold IsChain
    have := IsChain.decide hash_next hash_prev (some x) (hash_next x) xs
    exact inferInstance

/-- The table `c` is well formed with chains `chains`: in every bucket `b` the
chain from `hash_table[b]` is the finite, duplicate-free list `chains b`, its
first buffer has `hash_prev == NULL`, every buffer with a successor is the
`hash_prev` of that successor, and every buffer in it hashes to `b` (so no
buffer occurs in two buckets). -/
def TableWF (hash : Int → Bucket) (c : HashTable) (chains : Bucket → List Nat) : Prop :=
  ∀ b, IsChain c.hash_next c.hash_prev none (c.hash_table b) (chains b) ∧
    (chains b).Nodup ∧ ∀ e ∈ chains b, hash (c.key e) = b

/-! ### The cache operations built on the hash chains -/

/-- Modelled from the spec: the search loop of a lookup, "a plain chain walk
within one bucket" (4.2), whose code is not part of `caches-queues-lists.h`:
`for(entry = start; entry; entry = entry->hash_next) if(entry->FIELD == k)
break;`, run for at most `fuel` iterations.  `some r` is the pointer the loop
ends with (`NULL` when nothing is found), `none` means out of fuel. -/
def chain_find (hash_next : Nat → Ptr) (key : Nat → Int) (k : Int) : Nat → Ptr → Option Ptr
  | _, none => some none
  | 0, some _ => none
  | fuel + 1, some e =>
    if key e = k then some (some e) else chain_find hash_next key k fuel (hash_next e)

/-- Modelled from the spec: the search of `cache_lookup`, whose body is not
part of `caches-queues-lists.h` (only its declaration is).  The specification
(4.2) makes lookup "a plain chain walk within one bucket", the bucket being
`hash(index)`, and (4.3) returns "an existing buffer already indexed under
`index` ..., or none". -/
def cache_lookup (hash : Int → Bucket) (c : HashTable) (fuel : Nat) (index : Int) :
    Option Ptr :=
  chain_find c.hash_next c.key index fuel (c.hash_table (hash index))

/-- Modelled from the spec: `cache_rehash`, whose body is not part of
`caches-queues-lists.h` (only its declaration is).  The specification (4.3):
"removes buffer from its current hash-chain bucket ... and reinserts it under
`new_index`"; the two steps are the functions generated by `REMOVE_HASH_TABLE`
and `INSERT_HASH_TABLE`, and the index is set between them. -/
def cache_rehash (hash : Int → Bucket) (c : HashTable) (entry : Nat) (index : Int) :
    HashTable :=
  let c1 := remove_NAME_hash_table hash c entry
  let c2 : HashTable := { c1 with key := Function.update c1.key entry index }
  insert_NAME_hash_table hash c2 entry

/-- A hash function for examples: the low 16 bits of the key. -/
def lowBits (n : Int) : Bucket := Fin.ofNat (n % 65536).toNat

/-! ## A cache: both toolkits on the same buffers -/

/-- The fields of `struct file_buffer`, the flexible array `data` apart.  The
`long long`, `int` and `char` fields are integers; no arithmetic is done on
them here. -/
structure file_buffer where
  /-- The field `struct cache *cache`. -/
  cache : Ptr
  /-- The field `struct file_buffer *hash_next`. -/
  hash_next : Ptr
  /-- The field `struct file_buffer *hash_prev`. -/
  hash_prev : Ptr
  /-- The field `struct file_buffer *free_next`. -/
  free_next : Ptr
  /-- The field `struct file_buffer *free_prev`. -/
  free_prev : Ptr
  /-- The field `struct file_buffer *next`. -/
  next : Ptr
  /-- The field `long long file_size`. -/
  file_size : Int
  /-- The field `long long index`. -/
  index : Int
  /-- The field `long long block`. -/
  block : Int
  /-- The field `long long sequence`. -/
  sequence : Int
  /-- The field `int size`. -/
  size : Int
  /-- The field `int c_byte`. -/
  c_byte : Int
  /-- The field `char used`. -/
  used : Int
  /-- The field `char fragment`. -/
  fragment : Int
  /-- The field `char error`. -/
  error : Int
  /-- The field `char noD`. -/
  noD : Int

/-- The fields of `struct cache`, the mutex and the condition variable apart. -/
structure cache where
  /-- The field `int max_buffers`. -/
  max_buffers : Int
  /-- The field `int count`. -/
  count : Int
  /-- The field `int buffer_size`. -/
  buffer_size : Int
  /-- The field `int noshrink_lookup`. -/
  noshrink_lookup : Int
  /-- The field `int first_freelist`. -/
  first_freelist : Int
  /-- The anonymous union of `int used` and `int max_count`. -/
  used : Int
  /-- The field `struct file_buffer *free_list`. -/
  free_list : Ptr
  /-- The field `struct file_buffer *hash_table[65536]`. -/
  hash_table : Bucket → Ptr

/-- A cache in memory: the `struct cache` object and the `struct file_buffer`
object at every address. -/
structure CacheMem where
  /-- The `struct cache` object. -/
  container : cache
  /-- The buffer object at each address. -/
  buffers : Nat → file_buffer

/-- The assignment `a->free_next = v`. -/
def set_free_next (b : Nat → file_buffer) (a : Nat) (v : Ptr) : Nat → file_buffer :=
  Function.update b a { b a with free_next := v }

/-- The assignment `a->free_prev = v`. -/
def set_free_prev (b : Nat → file_buffer) (a : Nat) (v : Ptr) : Nat → file_buffer :=
  Function.update b a { b a with free_prev := v }

/-- The assignment `a->hash_next = v`. -/
def set_hash_next (b : Nat → file_buffer) (a : Nat) (v : Ptr) : Nat → file_buffer :=
  Function.update b a { b a with hash_next := v }

/-- The assignment `a->hash_prev = v`. -/
def set_hash_prev (b : Nat → file_buffer) (a : Nat) (v : Ptr) : Nat → file_buffer :=
  Function.update b a { b a with hash_prev := v }

/-- The function `insert_free_list` generated by `INSERT_LIST(free, struct
file_buffer)`, called with `list == &cache->free_list`; `none` when the C code
dereferences `NULL`. -/
def insert_free_list (m : CacheMem) (entry : Nat) : Option CacheMem :=
  match m.container.free_list with
  | some l =>
    -- entry->free_next = *list;
    let b1 := set_free_next m.buffers entry (some l)
    -- entry->free_prev = (*list)->free_prev;
    let b2 := set_free_prev b1 entry (b1 l).free_prev
    -- (*list)->free_prev->free_next = entry;
    match (b2 l).free_prev with
    | none => none
    | some p =>
      let b3 := set_free_next b2 p (some entry)
      -- (*list)->free_prev = entry;
      let b4 := set_free_prev b3 l (some entry)
      some { m with buffers := b4 }
  | none =>
    -- *list = entry;
    -- entry->free_prev = entry->free_next = entry;
    let b1 := set_free_next m.buffers entry (some entry)
    let b2 := set_free_prev b1 entry (b1 entry).free_next
    some { container := { m.container with free_list := some entry }, buffers := b2 }

/-- The function `remove_free_list` generated by `REMOVE_LIST(free, struct
file_buffer)`, called with `list == &cache->free_list`. -/
def remove_free_list (m : CacheMem) (entry : Nat) : CacheMem :=
  let m1 : CacheMem :=
    if (m.buffers entry).free_prev = some entry ∧ (m.buffers entry).free_next = some entry then
      -- only this entry in the list: *list = NULL;
      { m with container := { m.container with free_list := none } }
    else
      match (m.buffers entry).free_prev, (m.buffers entry).free_next with
      | some _, some n =>
        -- more than one entry in the list
        -- entry->free_next->free_prev = entry->free_prev;
        let b1 := set_free_prev m.buffers n (m.buffers entry).free_prev
        -- entry->free_prev->free_next = entry->free_next;
        let b2 :=
          match (b1 entry).free_prev with
          | some p => set_free_next b1 p (b1 entry).free_next
          | none => b1
        -- if(*list == entry) *list = entry->free_next;
        let head1 :=
          if m.container.free_list = some entry then (b2 entry).free_next
          else m.container.free_list
        { container := { m.container with free_list := head1 }, buffers := b2 }
      | _, _ => m
  -- entry->free_prev = entry->free_next = NULL;
  let b3 := set_free_next m1.buffers entry none
  let b4 := set_free_prev b3 entry (b3 entry).free_next
  { m1 with buffers := b4 }

/-- The function `insert_cache_hash_table` generated by `INSERT_HASH_TABLE(cache,
struct cache, HASH_FUNCTION, index)`; the macro argument `HASH_FUNCTION` is the
parameter `hash`. -/
def insert_cache_hash_table (hash : Int → Bucket) (m : CacheMem) (entry : Nat) :
    CacheMem :=
  -- int hash = HASH_FUNCTION(entry->index);
  let h := hash (m.buffers entry).index
  -- entry->hash_next = container->hash_table[hash];
  let b1 := set_hash_next m.buffers entry (m.container.hash_table h)
  -- container->hash_table[hash] = entry;
  let table1 := Function.update m.container.hash_table h (some entry)
  -- entry->hash_prev = NULL;
  let b2 := set_hash_prev b1 entry none
  -- if(entry->hash_next) entry->hash_next->hash_prev = entry;
  let b3 :=
    match (b2 entry).hash_next with
    | some n => set_hash_prev b2 n (some entry)
    | none => b2
  { container := { m.container with hash_table := table1 }, buffers := b3 }

/-- The function `remove_cache_hash_table` generated by `REMOVE_HASH_TABLE(cache,
struct cache, HASH_FUNCTION, index)`; the macro argument `HASH_FUNCTION` is the
parameter `hash`. -/
def remove_cache_hash_table (hash : Int → Bucket) (m : CacheMem) (entry : Nat) :
    CacheMem :=
  -- if(entry->hash_prev) entry->hash_prev->hash_next = entry->hash_next;
  -- else container->hash_table[HASH_FUNCTION(entry->index)] = entry->hash_next;
  let m1 : CacheMem :=
    match (m.buffers entry).hash_prev with
    | some p => { m with buffers := set_hash_next m.buffers p (m.buffers entry).hash_next }
    | none =>
      let table1 := Function.update m.container.hash_table (hash (m.buffers entry).index)
        (m.buffers entry).hash_next
      { m with container := { m.container with hash_table := table1 } }
  -- if(entry->hash_next) entry->hash_next->hash_prev = entry->hash_prev;
  let b1 :=
    match (m1.buffers entry).hash_next with
    | some n => set_hash_prev m1.buffers n (m1.buffers entry).hash_prev
    | none => m1.buffers
  -- entry->hash_prev = entry->hash_next = NULL;
  let b2 := set_hash_next b1 entry none
  let b3 := set_hash_prev b2 entry (b2 entry).hash_next
  { m1 with buffers := b3 }

/-- The freelist of a cache, as the list memory of the Link Toolkit: the head
`cache->free_list` and the fields `free_next`, `free_prev`. -/
def freeView (m : CacheMem) : LinkList :=
  { head := m.container.free_list
    next := fun a => (m.buffers a).free_next
    prev := fun a => (m.buffers a).free_prev }

/-- The index hash table of a cache, as the table memory of the Hash-Chain
Toolkit: `cache->hash_table` and the fields `hash_next`, `hash_prev`, `index`. -/
def hashView (m : CacheMem) : HashTable :=
  { hash_table := m.container.hash_table
    hash_next := fun a => (m.buffers a).hash_next
    hash_prev := fun a => (m.buffers a).hash_prev
    key := fun a => (m.buffers a).index }

/-- The buffer `b1` differs from `b` at most in the fields `free_next` and
`free_prev`. -/
def SameButFree (b b1 : file_buffer) : Prop :=
  b1 = { b with free_next := b1.free_next, free_prev := b1.free_prev }

/-- The buffer `b1` differs from `b` at most in the fields `hash_next` and
`hash_prev`. -/
def SameButHash (b b1 : file_buffer) : Prop :=
  b1 = { b with hash_next := b1.hash_next, hash_prev := b1.hash_prev }

/-- The memory `m1` differs from `m` at most in the freelist head and in the
fields `free_next` and `free_prev` of the buffers. -/
def FreeFrame (m m1 : CacheMem) : Prop :=
  m1.container = { m.container with free_list := m1.container.free_list } ∧
  ∀ a, SameButFree (m.buffers a) (m1.buffers a)

/-- The memory `m1` differs from `m` at most in the bucket heads and in the
fields `hash_next` and `hash_prev` of the buffers. -/
def HashFrame (m m1 : CacheMem) : Prop :=
  m1.container = { m.container with hash_table := m1.container.hash_table } ∧
  ∀ a, SameButHash (m.buffers a) (m1.buffers a)

/-- The memory `m1` has the bucket heads of `m`, and every buffer has in `m1`
the `hash_next`, `hash_prev`, `index`, `sequence` and flag fields (`used`,
`fragment`, `error`, `noD`) it has in `m`. -/
def KeepsHash (m m1 : CacheMem) : Prop :=
  m1.container.hash_table = m.container.hash_table ∧
  ∀ a, (m1.buffers a).hash_next = (m.buffers a).hash_next ∧
    (m1.buffers a).hash_prev = (m.buffers a).hash_prev ∧
    (m1.buffers a).index = (m.buffers a).index ∧
    (m1.buffers a).sequence = (m.buffers a).sequence ∧
    (m1.buffers a).used = (m.buffers a).used ∧
    (m1.buffers a).fragment = (m.buffers a).fragment ∧
    (m1.buffers a).error = (m.buffers a).error ∧
    (m1.buffers a).noD = (m.buffers a).noD

/-- The memory `m1` has the freelist head of `m`, and every buffer has in `m1`
the `free_next` and `free_prev` it has in `m`. -/
def KeepsFree (m m1 : CacheMem) : Prop :=
  m1.container.free_list = m.container.free_list ∧
  ∀ a, (m1.buffers a).free_next = (m.buffers a).free_next ∧
    (m1.buffers a).free_prev = (m.buffers a).free_prev

/-! ## The bounded queue -/

/-- The value an `int` holds after a computation whose exact result is `x`:
32-bit two's complement wrap-around. -/
def wrap_int (x : Int) : Int := (x + 2147483648) % 4294967296 - 2147483648

/-- The fields of `struct queue`, the mutex and the two condition variables
apart: the `int` fields `size`, `readp` and `writep`, and the array `data` of
`void *` slots, by index. -/
structure queue where
  /-- The field `int size`: the number of slots of `data`. -/
  size : Int
  /-- The field `int readp`: the read cursor. -/
  readp : Int
  /-- The field `int writep`: the write cursor. -/
  writep : Int
  /-- The slots `data[i]`. -/
  data : Int → Ptr

/-- The cursor after `c`: `(c + 1) % size`, computed in `int` arithmetic with
the remainder of C (truncated division). -/
def queue_advance (q : queue) (c : Int) : Int := Int.tmod (wrap_int (c + 1)) q.size

/-- The "current count" of the specification's data model.  `struct queue` has
no field for it; it is the distance from the read cursor to the write cursor,
round the ring of `size` slots. -/
def queue_count (q : queue) : Int :=
  if q.readp ≤ q.writep then q.writep - q.readp else q.writep - q.readp + q.size

/-- Modelled from the spec: `queue_init`, whose body is not part of
`caches-queues-lists.h` (only its declaration is): an empty queue of the given
capacity.  With the fields of `struct queue`, an empty queue and a full one
can only be told apart by the cursors, which takes one slot that is never
filled: a queue of capacity `n` has `n + 1` slots. -/
def queue_init (size : Int) : queue :=
  { size := wrap_int (size + 1), readp := 0, writep := 0, data := fun _ => none }

/-- Modelled from the spec: `queue_put`, whose body is not part of
`caches-queues-lists.h`.  Specification (4.4): "blocks while the queue is full,
then inserts at the write cursor and advances it".  The queue is full when
advancing the write cursor would reach the read cursor; the result is `none`
when the call would block. -/
def queue_put (q : queue) (item : Ptr) : Option queue :=
  let nextp := queue_advance q q.writep
  if nextp = q.readp then none
  else some { q with data := Function.update q.data q.writep item, writep := nextp }

/-- Modelled from the spec: `queue_get`, whose body is not part of
`caches-queues-lists.h`.  Specification (4.4): "blocks while the queue is
empty, then removes from the read cursor and advances it".  The queue is empty
when the two cursors are equal; the result is `none` when the call would
block. -/
def queue_get (q : queue) : Option (Ptr × queue) :=
  if q.readp = q.writep then none
  else some (q.data q.readp, { q with readp := queue_advance q q.readp })

/-- One call on a bounded queue. -/
inductive QueueOp where
  /-- The call `queue_put(queue, item)`. -/
  | put (item : Ptr)
  /-- The call `queue_get(queue)`. -/
  | get

/-- Run a sequence of calls in one thread, first call first: the items the
gets return, in order, and every state the queue goes through (the first and
the last included); `none` when a call would block. -/
def runQueue : queue → List QueueOp → Option (List Ptr × List queue)
  | q, [] => some ([], [q])
  | q, QueueOp.put item :: ops =>
    match queue_put q item with
    | none => none
    | some q1 =>
      match runQueue q1 ops with
      | none => none
      | some (out, states) => some (out, q :: states)
  | q, QueueOp.get :: ops =>
    match queue_get q with
    | none => none
    | some (x, q1) =>
      match runQueue q1 ops with
      | none => none
      | some (out, states) => some (x :: out, q :: states)

/-- The queue `q` is a valid `struct queue` that holds the items `L`, oldest
first: the fields are within the range of `int`, the read cursor is a slot
index, the items sit in the slots from the read cursor on, round the ring, and
the write cursor is the slot just after them; one slot at least is free. -/
def Holds (q : queue) (L : List Ptr) : Prop :=
  0 ≤ q.readp ∧ q.readp < q.size ∧ q.size ≤ 2147483647 ∧ (L.length : Int) < q.size ∧
  q.writep = (q.readp + (L.length : Int)) % q.size ∧
  ∀ i : Nat, i < L.length → L[i]? = some (q.data ((q.readp + (i : Int)) % q.size))

/-! ## The sequencing queue -/

/-- The fields of `struct seq_queue`, the mutex and the condition variable
apart. -/
structure seq_queue where
  /-- The field `int fragment_count`. -/
  fragment_count : Int
  /-- The field `int block_count`. -/
  block_count : Int
  /-- The field `struct file_buffer *hash_table[65536]`. -/
  hash_table : Bucket → Ptr

/-- A sequencing queue in memory: the `struct seq_queue` object and the fields
of the buffers its functions read and write. -/
structure SeqMem where
  /-- The `struct seq_queue` object. -/
  queue : seq_queue
  /-- The field `hash_next` of each buffer. -/
  hash_next : Nat → Ptr
  /-- The field `hash_prev` of each buffer. -/
  hash_prev : Nat → Ptr
  /-- The field `long long sequence` of each buffer. -/
  sequence : Nat → Int
  /-- The field `char fragment` of each buffer. -/
  fragment : Nat → Int

/-- The hash table of a sequencing queue, as the table memory of the Hash-Chain
Toolkit; the key is the field `sequence`. -/
def SeqMem.table (m : SeqMem) : HashTable :=
  { hash_table := m.queue.hash_table
    hash_next := m.hash_next
    hash_prev := m.hash_prev
    key := m.sequence }

/-- Write a table memory of the Hash-Chain Toolkit back into the queue. -/
def SeqMem.withTable (m : SeqMem) (t : HashTable) : SeqMem :=
  { queue := { m.queue with hash_table := t.hash_table }
    hash_next := t.hash_next
    hash_prev := t.hash_prev
    sequence := t.key
    fragment := m.fragment }

/-- The sub-stream of a buffer: `true` for a fragment block (`fragment` not
zero), `false` for an ordinary block. -/
def SeqMem.substream (m : SeqMem) (e : Nat) : Bool := decide (m.fragment e ≠ 0)

/-- Modelled from the spec: the two `int` counters of `struct seq_queue` are,
by the specification (3), the "expected-next counters (one for ordinary blocks,
one for fragment blocks)"; this is the counter of a sub-stream. -/
def SeqMem.expected (m : SeqMem) (fragment : Bool) : Int :=
  if fragment then m.queue.fragment_count else m.queue.block_count

/-- The buffers `l` carry the consecutive keys `k, k + 1, k + 2, …` in this order. -/
def Consecutive (key : Nat → Int) : Int → List Nat → Prop
  | _, [] => True
  | k, x :: xs => key x = k ∧ Consecutive key (k + 1) xs

/-! ## Sample memories -/

/-- A membership-tracking check of a call sequence: `l` lists the current
members; an insert must be of a non-member and appends it, a remove must be of
a member and erases it. -/
def checkOps : List Nat → List ListOp → Bool
  | _, [] => true
  | l, ListOp.insert e :: ops => decide (e ∉ l) && checkOps (l ++ [e]) ops
  | l, ListOp.remove e :: ops => decide (e ∈ l) && checkOps (l.erase e) ops

/-- The empty list, every link `NULL`. -/
def emptyList : LinkList := { head := none, next := fun _ => none, prev := fun _ => none }

/-- The list with the single member `1`. -/
def singleList : LinkList :=
  { head := some 1, next := fun _ => some 1, prev := fun _ => some 1 }

/-- The list `1, 2, 3` with head `1`: `next` is `1 → 2 → 3 → 1`, `prev` the reverse. -/
def tripleList : LinkList :=
  { head := some 1
    next := fun a => if a = 1 then some 2 else if a = 2 then some 3 else some 1
    prev := fun a => if a = 1 then some 3 else if a = 2 then some 1 else some 2 }

/-- A table with the chain `1, 2` in bucket `0` and nothing else.  Buffer `1`
carries key `0`, buffer `2` key `65536` and buffer `3` key `131072` (all three
hash to bucket `0` under `lowBits`); every other buffer carries key `5`.
Buffer `3` and the others are in no chain, their links `NULL`. -/
def sampleTable : HashTable :=
  { hash_table := fun b => if b = 0 then some 1 else none
    hash_next := fun a => if a = 1 then some 2 else none
    hash_prev := fun a => if a = 2 then some 1 else none
    key := fun a =>
      if a = 1 then 0 else if a = 2 then 65536 else if a = 3 then 131072 else 5 }

/-- The chains of `sampleTable`. -/
def sampleChains : Bucket → List Nat := fun b => if b = 0 then [1, 2] else []

/-- A cache of which `sampleTable` is the hash table (chain `1, 2` in bucket
`0`) and whose freelist is `2, 3` with head `2`: buffer `2` is in a hash chain
and on the freelist at once. -/
def sampleCache : CacheMem :=
  { container :=
      { max_buffers := 4, count := 3, buffer_size := 0, noshrink_lookup := 0,
        first_freelist := 0, used := 0, free_list := some 2,
        hash_table := sampleTable.hash_table }
    buffers := fun a =>
      { cache := none, hash_next := sampleTable.hash_next a,
        hash_prev := sampleTable.hash_prev a,
        free_next := if a = 2 then some 3 else if a = 3 then some 2 else none,
        free_prev := if a = 2 then some 3 else if a = 3 then some 2 else none,
        next := none, file_size := 0, index := sampleTable.key a, block := 0,
        sequence := 7, size := 0, c_byte := 0, used := 0, fragment := 0, error := 0,
        noD := 0 } }

theorem linked_append (next prev : Nat → Ptr) (l₁ l₂ : List Nat) (a m b : Nat) :
    Linked next prev a (l₁ ++ m :: l₂) b ↔
      Linked next prev a l₁ m ∧ Linked next prev m l₂ b := by
  induction l₁ generalizing a with
  | nil => simp [Linked, and_assoc]
  | cons x xs ih => simp [Linked, ih, and_assoc]

theorem linked_concat (next prev : Nat → Ptr) (l : List Nat) (a m b : Nat) :
    Linked next prev a (l ++ [m]) b ↔
      Linked next prev a l m ∧ next m = some b ∧ prev b = some m := by
  rw [linked_append]; simp [Linked]

/-- Rotating the cycle does not change whether it is linked. -/
theorem linked_rotate (next prev : Nat → Ptr) (l₁ l₂ : List Nat) (a b : Nat) :
    Linked next prev a (l₁ ++ b :: l₂) a ↔ Linked next prev b (l₂ ++ a :: l₁) b := by
  rw [linked_append, linked_append, and_comm]

/-- Frame rule: a linked path only depends on `next` at its sources and on
`prev` at its targets. -/
theorem linked_frame {next prev next1 prev1 : Nat → Ptr} (l : List Nat) (a b : Nat)
    (hn : ∀ y ∈ a :: l, next1 y = next y) (hp : ∀ y ∈ l ++ [b], prev1 y = prev y)
    (h : Linked next prev a l b) : Linked next1 prev1 a l b := by
  induction l generalizing a with
  | nil =>
    simp only [Linked] at h ⊢
    rw [hn a (by simp), hp b (by simp)]; exact h
  | cons x xs ih =>
    simp only [Linked] at h ⊢
    refine ⟨by rw [hn a (by simp)]; exact h.1, by rw [hp x (by simp)]; exact h.2.1, ?_⟩
    exact ih x (fun y hy => hn y (by simp at hy ⊢; tauto))
      (fun y hy => hp y (by simp at hy ⊢; tauto)) h.2.2

theorem walk_of_linked {next prev : Nat → Ptr} (l : List Nat) (a b : Nat)
    (h : Linked next prev a l b) (hb : b ∉ l) (fuel : Nat) :
    walk next b fuel a = (a :: l).take fuel := by
  induction l generalizing a fuel with
  | nil =>
    cases fuel with
    | zero => simp [walk]
    | succ k => simp [Linked] at h; simp [walk, h.1]
  | cons x xs ih =>
    cases fuel with
    | zero => simp [walk]
    | succ k =>
      simp only [Linked] at h
      have hx : x ≠ b := fun hxb => hb (by simp [hxb])
      simp [walk, h.1, hx, ih x h.2.2 (fun hm => hb (by simp [hm]))]

theorem traverse_of_wellFormed {s : LinkList} {l : List Nat} (h : WellFormed s l)
    (fuel : Nat) : traverse s fuel = l.take fuel := by
  cases l with
  | nil => simp [WellFormed] at h; simp [traverse, h]
  | cons x xs =>
    obtain ⟨hh, hnd, hl⟩ := h
    simp only [traverse, hh]
    exact walk_of_linked xs x x hl (List.nodup_cons.mp hnd).1 fuel

theorem member_iff_of_wellFormed {s : LinkList} {l : List Nat} (h : WellFormed s l)
    (e : Nat) : Member s e ↔ e ∈ l := by
  constructor
  · rintro ⟨fuel, hf⟩
    rw [traverse_of_wellFormed h] at hf
    exact List.mem_of_mem_take hf
  · intro he
    exact ⟨l.length, by rw [traverse_of_wellFormed h, List.take_length]; exact he⟩

/-- The effect of `insert_NAME_list` on a non-empty list whose head `h` has
predecessor `p`, for an entry other than the head. -/
theorem insert_eq_of_head {s : LinkList} {h p e : Nat} (hh : s.head = some h)
    (hp : s.prev h = some p) (hne : h ≠ e) :
    insert_NAME_list s e = some
      { head := some h
        next := Function.update (Function.update s.next e (some h)) p (some e)
        prev := Function.update (Function.update s.prev e (some p)) h (some e) } := by
  simp [insert_NAME_list, hh, hp, Function.update_noteq hne]

/-- Inserting a new entry into a well-formed non-empty list appends it to the
cycle, just before the head. -/
theorem insert_wellFormed_cons {s : LinkList} {h : Nat} {t : List Nat} {e : Nat}
    (hwf : WellFormed s (h :: t)) (he : e ∉ h :: t) :
    ∃ s1, insert_NAME_list s e = some s1 ∧ s1.head = some h ∧
      s1.prev h = some e ∧ s1.next e = some h ∧ WellFormed s1 (h :: t ++ [e]) := by
  obtain ⟨hh, hnd, hl⟩ := hwf
  have heh : h ≠ e := fun hc => he (by simp [hc])
  have het : e ∉ t := fun hc => he (by simp [hc])
  have hht : h ∉ t := (List.nodup_cons.mp hnd).1
  have hnd1 : (h :: t ++ [e]).Nodup := by
    rw [List.cons_append, List.nodup_cons]
    refine ⟨by simp [hht, heh], ?_⟩
    rw [List.nodup_append]
    exact ⟨(List.nodup_cons.mp hnd).2, by simp, by simpa using het⟩
  rcases List.eq_nil_or_concat t with rfl | ⟨L, p, ht⟩
  · simp only [Linked] at hl
    refine ⟨_, insert_eq_of_head hh hl.2 heh, rfl, by simp, ?_, rfl, hnd1, ?_⟩
    · simp [Function.update_noteq (Ne.symm heh)]
    · simp [Linked, Function.update_noteq (Ne.symm heh)]
  · rw [List.concat_eq_append] at ht
    subst ht
    rw [linked_concat] at hl
    obtain ⟨hL, hpn, hpp⟩ := hl
    have hpe : p ≠ e := fun hc => het (by simp [hc])
    have hph : p ≠ h := fun hc => hht (by simp [hc])
    have hpL : p ∉ L := by
      have := (List.nodup_cons.mp hnd).2
      rw [List.nodup_append] at this
      intro hc
      exact this.2.2 hc (by simp)
    have heL : e ∉ L := fun hc => het (by simp [hc])
    have hhL : h ∉ L := fun hc => hht (by simp [hc])
    refine ⟨_, insert_eq_of_head hh hpp heh, rfl, by simp, ?_, rfl, hnd1, ?_⟩
    · simp [Function.update_noteq (Ne.symm hpe)]
    · show Linked _ _ h ((L ++ [p]) ++ [e]) h
      rw [linked_concat, linked_concat]
      refine ⟨⟨linked_frame L h p ?_ ?_ hL, by simp, ?_⟩, ?_, by simp⟩
      · intro y hy
        have hyp : y ≠ p := by rintro rfl; simp at hy; tauto
        have hye : y ≠ e := by rintro rfl; simp at hy; tauto
        simp [Function.update_noteq hyp, Function.update_noteq hye]
      · intro y hy
        have hyh : y ≠ h := by rintro rfl; simp at hy; tauto
        have hye : y ≠ e := by rintro rfl; simp at hy; tauto
        simp [Function.update_noteq hyh, Function.update_noteq hye]
      · simp [Function.update_noteq (Ne.symm heh)]
      · simp [Function.update_noteq (Ne.symm hpe)]

/-- The effect of `remove_NAME_list` on an entry whose successor `n` and
predecessor `p` are other objects. -/
theorem remove_eq_of_links {s : LinkList} {e n p : Nat} (hn : s.next e = some n)
    (hp : s.prev e = some p) (hne : n ≠ e) (hpe : p ≠ e) :
    remove_NAME_list s e =
      { head := if s.head = some e then some n else s.head
        next := Function.update (Function.update s.next p (some n)) e none
        prev := Function.update (Function.update s.prev n (some p)) e none } := by
  simp [remove_NAME_list, hn, hp, hne, hpe, Function.update_noteq (Ne.symm hne),
    Function.update_noteq (Ne.symm hpe)]

/-- The effect of `remove_NAME_list` on an entry that is its own successor and
predecessor. -/
theorem remove_eq_of_self {s : LinkList} {e : Nat} (hn : s.next e = some e)
    (hp : s.prev e = some e) :
    remove_NAME_list s e =
      { head := none
        next := Function.update s.next e none
        prev := Function.update s.prev e none } := by
  simp [remove_NAME_list, hn, hp]

/-- Removing the first object `e` of a linked cycle `e, x, xs…` leaves the
cycle `x, xs…` linked, whichever object the head points to. -/
theorem remove_linked_first {s : LinkList} {e x : Nat} {xs : List Nat}
    (hnd : (e :: x :: xs).Nodup) (hl : Linked s.next s.prev e (x :: xs) e) :
    (remove_NAME_list s e).head = (if s.head = some e then s.next e else s.head) ∧
      (remove_NAME_list s e).next e = none ∧ (remove_NAME_list s e).prev e = none ∧
      Linked (remove_NAME_list s e).next (remove_NAME_list s e).prev x xs x := by
  have hex : e ∉ x :: xs := (List.nodup_cons.mp hnd).1
  have hxe : x ≠ e := fun hc => hex (by simp [hc])
  have hxx : x ∉ xs := (List.nodup_cons.mp (List.nodup_cons.mp hnd).2).1
  obtain ⟨hen, hxp, hrest⟩ := hl
  rcases List.eq_nil_or_concat xs with rfl | ⟨L, p, ht⟩
  · simp only [Linked] at hrest
    rw [remove_eq_of_links hen hrest.2 hxe hxe]
    simp [Linked, Function.update_noteq hxe, hen]
  · rw [List.concat_eq_append] at ht
    subst ht
    rw [linked_concat] at hrest
    obtain ⟨hL, hpn, hpp⟩ := hrest
    have hpe : p ≠ e := fun hc => hex (by simp [hc])
    have hpx : p ≠ x := fun hc => hxx (by simp [hc])
    have hpL : p ∉ L := by
      have := (List.nodup_cons.mp (List.nodup_cons.mp hnd).2).2
      rw [List.nodup_append] at this
      intro hc
      exact this.2.2 hc (by simp)
    have heL : e ∉ L := fun hc => hex (by simp [hc])
    have hxL : x ∉ L := fun hc => hxx (by simp [hc])
    rw [remove_eq_of_links hen hpp hxe hpe]
    refine ⟨by simp [hen], by simp, by simp, ?_⟩
    rw [linked_concat]
    refine ⟨linked_frame L x p ?_ ?_ hL, ?_, ?_⟩
    · intro y hy
      have hyp : y ≠ p := by rintro rfl; simp at hy; tauto
      have hye : y ≠ e := by rintro rfl; simp at hy; tauto
      simp [Function.update_noteq hyp, Function.update_noteq hye]
    · intro y hy
      have hyx : y ≠ x := by rintro rfl; simp at hy; tauto
      have hye : y ≠ e := by rintro rfl; simp at hy; tauto
      simp [Function.update_noteq hyx, Function.update_noteq hye]
    · simp [Function.update_noteq hpe]
    · simp [Function.update_noteq hxe]

/-- Removing the only member of a well-formed list empties it. -/
theorem remove_wellFormed_single {s : LinkList} {e : Nat} (hwf : WellFormed s [e]) :
    (remove_NAME_list s e).head = none ∧ (remove_NAME_list s e).next e = none ∧
      (remove_NAME_list s e).prev e = none := by
  obtain ⟨-, -, hl⟩ := hwf
  simp only [Linked] at hl
  rw [remove_eq_of_self hl.1 hl.2]
  simp

/-- Removing a member of a well-formed list of at least two members erases it
from the cycle and moves the head off it if need be. -/
theorem remove_wellFormed_of_two {s : LinkList} {l : List Nat} {e : Nat}
    (hwf : WellFormed s l) (he : e ∈ l) (h2 : 2 ≤ l.length) :
    (remove_NAME_list s e).head = (if s.head = some e then s.next e else s.head) ∧
      (remove_NAME_list s e).next e = none ∧ (remove_NAME_list s e).prev e = none ∧
      WellFormed (remove_NAME_list s e) (l.erase e) := by
  match l, hwf, he, h2 with
  | h :: t, ⟨hh, hnd, hl⟩, he, h2 =>
    by_cases heh : e = h
    · subst heh
      match t, hnd, hl, h2 with
      | x :: xs, hnd, hl, _ =>
        obtain ⟨h1, h2, h3, h4⟩ := remove_linked_first hnd hl
        refine ⟨h1, h2, h3, ?_⟩
        rw [List.erase_cons_head]
        refine ⟨?_, (List.nodup_cons.mp hnd).2, h4⟩
        rw [h1, if_pos hh]; exact hl.1
    · have het : e ∈ t := by simpa [heh] using he
      obtain ⟨l₁, l₂, rfl⟩ := List.append_of_mem het
      have hnd2 := (List.nodup_cons.mp hnd).2
      have hel₁ : e ∉ l₁ := by
        rw [List.nodup_append] at hnd2
        intro hc
        exact hnd2.2.2 hc (by simp)
      have herase : (h :: (l₁ ++ e :: l₂)).erase e = h :: (l₁ ++ l₂) := by
        rw [List.erase_cons_tail (by simpa using Ne.symm heh),
          List.erase_append_right _ hel₁, List.erase_cons_head]
      have hnd3 : (h :: (l₁ ++ l₂)).Nodup := by
        rw [← herase]; exact hnd.erase e
      have hhe : ¬ s.head = some e := by rw [hh]; simpa using Ne.symm heh
      rw [herase]
      rw [linked_rotate] at hl
      have hperm : (e :: (l₂ ++ h :: l₁)).Perm (h :: (l₁ ++ e :: l₂)) := by
        have h1 : (e :: (l₂ ++ h :: l₁)).Perm ((h :: l₁) ++ e :: l₂) := by
          rw [← List.cons_append]
          exact List.perm_append_comm
        simpa using h1
      have hnd4 : (e :: (l₂ ++ h :: l₁)).Nodup := hperm.nodup_iff.mpr hnd
      cases l₂ with
      | nil =>
        obtain ⟨h1, h2, h3, h4⟩ := remove_linked_first hnd4 hl
        refine ⟨h1, h2, h3, ?_, by simpa using hnd3, by simpa using h4⟩
        rw [h1, if_neg hhe]; exact hh
      | cons y ys =>
        obtain ⟨h1, h2, h3, h4⟩ := remove_linked_first hnd4 hl
        refine ⟨h1, h2, h3, ?_, hnd3, ?_⟩
        · rw [h1, if_neg hhe]; exact hh
        · rw [linked_rotate]; exact h4

/-- Removing any member of a well-formed list erases it from the cycle. -/
theorem remove_wellFormed {s : LinkList} {l : List Nat} {e : Nat}
    (hwf : WellFormed s l) (he : e ∈ l) :
    WellFormed (remove_NAME_list s e) (l.erase e) := by
  by_cases h2 : 2 ≤ l.length
  · exact (remove_wellFormed_of_two hwf he h2).2.2.2
  · match l, hwf, he, h2 with
    | [x], hwf, he, _ =>
      have hex : e = x := by simpa using he
      subst hex
      simpa [WellFormed] using (remove_wellFormed_single hwf).1
    | _ :: _ :: _, _, _, h2 => simp at h2

/-- The effect of `insert_NAME_list` on an empty list. -/
theorem insert_eq_of_empty {s : LinkList} (e : Nat) (hh : s.head = none) :
    insert_NAME_list s e = some
      { head := some e
        next := Function.update s.next e (some e)
        prev := Function.update s.prev e (some e) } := by
  simp [insert_NAME_list, hh]

/-- Inserting a new entry into any well-formed list appends it to the cycle. -/
theorem insert_wellFormed {s : LinkList} {l : List Nat} {e : Nat}
    (hwf : WellFormed s l) (he : e ∉ l) :
    ∃ s1, insert_NAME_list s e = some s1 ∧ WellFormed s1 (l ++ [e]) := by
  cases l with
  | nil =>
    refine ⟨_, insert_eq_of_empty e hwf, rfl, by simp, ?_⟩
    simp [Linked]
  | cons h t =>
    obtain ⟨s1, h1, -, -, -, h5⟩ := insert_wellFormed_cons hwf he
    exact ⟨s1, h1, h5⟩

/-- In a linked path every source is the `prev` of its `next` and every target
the `next` of its `prev`. -/
theorem linked_consistent {next prev : Nat → Ptr} (l : List Nat) (a b : Nat)
    (h : Linked next prev a l b) :
    (∀ x ∈ a :: l, ∃ n, next x = some n ∧ prev n = some x) ∧
      (∀ x ∈ l ++ [b], ∃ p, prev x = some p ∧ next p = some x) := by
  induction l generalizing a with
  | nil =>
    simp only [Linked] at h
    constructor
    · intro x hx
      obtain rfl : x = a := by simpa using hx
      exact ⟨b, h.1, h.2⟩
    · intro x hx
      obtain rfl : x = b := by simpa using hx
      exact ⟨a, h.2, h.1⟩
  | cons y ys ih =>
    simp only [Linked] at h
    obtain ⟨ih1, ih2⟩ := ih y h.2.2
    constructor
    · intro x hx
      rcases List.mem_cons.mp hx with rfl | hx
      · exact ⟨y, h.1, h.2.1⟩
      · exact ih1 x hx
    · intro x hx
      rw [List.cons_append] at hx
      rcases List.mem_cons.mp hx with rfl | hx
      · exact ⟨a, h.2.1, h.1⟩
      · exact ih2 x hx

/-- A well-formed list has list integrity. -/
theorem integrity_of_wellFormed {s : LinkList} {l : List Nat} (hwf : WellFormed s l) :
    Integrity s := by
  cases l with
  | nil => exact Or.inl hwf
  | cons h t =>
    refine Or.inr ⟨h :: t, by simp, hwf, member_iff_of_wellFormed hwf, ?_⟩
    intro e he
    have hm : e ∈ h :: t := (member_iff_of_wellFormed hwf e).mp he
    obtain ⟨h1, h2⟩ := linked_consistent t h h hwf.2.2
    refine ⟨h1 e hm, h2 e ?_⟩
    simp at hm ⊢
    tauto

/-- Every admissible sequence of calls runs to completion from a well-formed
list and ends in a well-formed list. -/
theorem runOps_wellFormed (ops : List ListOp) :
    ∀ (s : LinkList) (l : List Nat), WellFormed s l → Admissible s ops →
      ∃ s1 l1, runOps s ops = some s1 ∧ WellFormed s1 l1 := by
  induction ops with
  | nil => intro s l hwf _; exact ⟨s, l, rfl, hwf⟩
  | cons op ops ih =>
    intro s l hwf hadm
    cases op with
    | insert e =>
      obtain ⟨hnm, hrest⟩ := hadm
      have he : e ∉ l := fun hc => hnm ((member_iff_of_wellFormed hwf e).mpr hc)
      obtain ⟨s1, h1, hwf1⟩ := insert_wellFormed hwf he
      obtain ⟨s2, l2, h2, hwf2⟩ := ih s1 _ hwf1 (hrest s1 h1)
      exact ⟨s2, l2, by simp [runOps, h1, h2], hwf2⟩
    | remove e =>
      obtain ⟨hm, hrest⟩ := hadm
      have he : e ∈ l := (member_iff_of_wellFormed hwf e).mp hm
      obtain ⟨s2, l2, h2, hwf2⟩ := ih _ _ (remove_wellFormed hwf he) hrest
      exact ⟨s2, l2, by simp [runOps, h2], hwf2⟩

/-- Removing the members of a well-formed list one by one, in any order,
empties it. -/
theorem remove_all_wellFormed (order : List Nat) :
    ∀ (s : LinkList) (l : List Nat), WellFormed s l → order.Perm l →
      WellFormed (order.foldl remove_NAME_list s) [] := by
  induction order with
  | nil =>
    intro s l hwf hp
    have : l = [] := by simpa using hp.symm
    subst this
    exact hwf
  | cons e rest ih =>
    intro s l hwf hp
    obtain ⟨he, hp1⟩ := List.cons_perm_iff_perm_erase.mp hp
    exact ih _ _ (remove_wellFormed hwf he) hp1

/-- A call sequence that passes the membership-tracking check is admissible. -/
theorem admissible_of_checkOps (ops : List ListOp) :
    ∀ (s : LinkList) (l : List Nat), WellFormed s l → checkOps l ops = true →
      Admissible s ops := by
  induction ops with
  | nil => intro s l _ _; trivial
  | cons op ops ih =>
    intro s l hwf hc
    cases op with
    | insert e =>
      simp only [checkOps, Bool.and_eq_true, decide_eq_true_eq] at hc
      refine ⟨fun hm => hc.1 ((member_iff_of_wellFormed hwf e).mp hm), ?_⟩
      intro s1 h1
      obtain ⟨s2, h2, hwf2⟩ := insert_wellFormed hwf hc.1
      rw [h2] at h1
      cases h1
      exact ih _ _ hwf2 hc.2
    | remove e =>
      simp only [checkOps, Bool.and_eq_true, decide_eq_true_eq] at hc
      exact ⟨(member_iff_of_wellFormed hwf e).mpr hc.1,
        ih _ _ (remove_wellFormed hwf hc.1) hc.2⟩

/-! ### The claims about the Link Toolkit -/

/-- C1 (list integrity): from an empty list (head `NULL`, whatever the link
fields hold), every finite sequence of `insert_NAME_list` calls on non-members
and `remove_NAME_list` calls on members runs to completion, and the list it
leaves is empty or a single finite cycle from the head in which every member
`e` satisfies `e.next.prev == e` and `e.prev.next == e`. -/
theorem list_integrity_invariant (next prev : Nat → Ptr) (ops : List ListOp)
    (hadm : Admissible { head := none, next := next, prev := prev } ops) :
    ∃ s, runOps { head := none, next := next, prev := prev } ops = some s ∧
      Integrity s := by
  obtain ⟨s1, l1, h1, hwf1⟩ :=
    runOps_wellFormed ops { head := none, next := next, prev := prev } [] rfl hadm
  exact ⟨s1, h1, integrity_of_wellFormed hwf1⟩

/-- An instance of C1: three inserts and removes interleaved, from the empty list. -/
theorem list_integrity_invariant_witness :
    Admissible { head := none, next := fun _ => none, prev := fun _ => none }
        [ListOp.insert 5, ListOp.insert 3, ListOp.insert 4, ListOp.remove 5,
          ListOp.insert 5, ListOp.remove 3, ListOp.remove 5, ListOp.remove 4] ∧
      ∃ s, runOps { head := none, next := fun _ => none, prev := fun _ => none }
        [ListOp.insert 5, ListOp.insert 3, ListOp.insert 4, ListOp.remove 5,
          ListOp.insert 5, ListOp.remove 3, ListOp.remove 5, ListOp.remove 4] = some s ∧
        Integrity s :=
  ⟨admissible_of_checkOps _ _ [] rfl (by decide),
    list_integrity_invariant _ _ _ (admissible_of_checkOps _ _ [] rfl (by decide))⟩

/-- C2: on a well-formed non-empty list `l` and an entry `e` not in it,
`insert_NAME_list` returns, leaves the head pointer unchanged, makes
`head.prev == e` and `e.next == head`, and the forward traversal from the head
becomes the old traversal `l` followed by `e`; so the members are the old
members plus `e`. -/
theorem insert_list_splices_before_head (s : LinkList) (l : List Nat) (e : Nat)
    (hwf : WellFormed s l) (hne : l ≠ []) (he : e ∉ l) :
    ∃ s1, insert_NAME_list s e = some s1 ∧ s1.head = s.head ∧
      (∃ h, s.head = some h ∧ s1.prev h = some e ∧ s1.next e = some h) ∧
      WellFormed s1 (l ++ [e]) ∧
      (∀ fuel, l.length ≤ fuel → traverse s fuel = l) ∧
      (∀ fuel, l.length + 1 ≤ fuel → traverse s1 fuel = l ++ [e]) ∧
      ∀ x, Member s1 x ↔ (Member s x ∨ x = e) := by
  match l, hwf, hne, he with
  | h :: t, hwf, _, he =>
    obtain ⟨s1, h1, h2, h3, h4, h5⟩ := insert_wellFormed_cons hwf he
    refine ⟨s1, h1, by rw [h2, hwf.1], ⟨h, hwf.1, h3, h4⟩, h5, ?_, ?_, ?_⟩
    · intro fuel hf
      rw [traverse_of_wellFormed hwf, List.take_of_length_le hf]
    · intro fuel hf
      rw [traverse_of_wellFormed h5, List.take_of_length_le (by simpa using hf)]
    · intro x
      rw [member_iff_of_wellFormed h5, member_iff_of_wellFormed hwf]
      simp [or_assoc]

/-- An instance of C2: inserting `7` into the list `1, 2, 3`. -/
theorem insert_list_splices_before_head_witness :
    WellFormed tripleList [1, 2, 3] ∧ ([1, 2, 3] : List Nat) ≠ [] ∧ 7 ∉ [1, 2, 3] ∧
      ∃ s1, insert_NAME_list tripleList 7 = some s1 ∧ s1.head = tripleList.head ∧
        (∃ h, tripleList.head = some h ∧ s1.prev h = some 7 ∧ s1.next 7 = some h) ∧
        WellFormed s1 ([1, 2, 3] ++ [7]) ∧
        (∀ fuel, [1, 2, 3].length ≤ fuel → traverse tripleList fuel = [1, 2, 3]) ∧
        (∀ fuel, [1, 2, 3].length + 1 ≤ fuel → traverse s1 fuel = [1, 2, 3] ++ [7]) ∧
        ∀ x, Member s1 x ↔ (Member tripleList x ∨ x = 7) :=
  ⟨by decide, by decide, by decide,
    insert_list_splices_before_head tripleList [1, 2, 3] 7 (by decide) (by decide)
      (by decide)⟩

/-- C3: on an empty list (head `NULL`) `insert_NAME_list` returns and makes the
entry a self-referential singleton: the head points to the entry and
`entry.prev == entry.next == entry`. -/
theorem insert_list_empty_singleton (s : LinkList) (e : Nat) (hh : s.head = none) :
    ∃ s1, insert_NAME_list s e = some s1 ∧ s1.head = some e ∧
      s1.prev e = some e ∧ s1.next e = some e ∧ WellFormed s1 [e] := by
  refine ⟨_, insert_eq_of_empty e hh, rfl, by simp, by simp, rfl, by simp, ?_⟩
  simp [Linked]

/-- An instance of C3: inserting `4` into the empty list. -/
theorem insert_list_empty_singleton_witness :
    emptyList.head = none ∧
      ∃ s1, insert_NAME_list emptyList 4 = some s1 ∧ s1.head = some 4 ∧
        s1.prev 4 = some 4 ∧ s1.next 4 = some 4 ∧ WellFormed s1 [4] :=
  ⟨rfl, insert_list_empty_singleton emptyList 4 rfl⟩

/-- C4: on a well-formed list `l` of at least two members and a member `e`,
`remove_NAME_list` detaches exactly `e`: the forward traversal afterwards is
`l` with `e` erased (the others in their old order); the head becomes the old
`e.next` when `e` was the head and is unchanged otherwise. -/
theorem remove_list_detaches_entry (s : LinkList) (l : List Nat) (e : Nat)
    (hwf : WellFormed s l) (h2 : 2 ≤ l.length) (he : e ∈ l) :
    WellFormed (remove_NAME_list s e) (l.erase e) ∧
      (∀ fuel, l.length ≤ fuel → traverse s fuel = l) ∧
      (∀ fuel, l.length - 1 ≤ fuel → traverse (remove_NAME_list s e) fuel = l.erase e) ∧
      (l.erase e).Sublist l ∧ (∀ x, x ∈ l.erase e ↔ x ∈ l ∧ x ≠ e) ∧
      (s.head = some e → (remove_NAME_list s e).head = s.next e) ∧
      (s.head ≠ some e → (remove_NAME_list s e).head = s.head) := by
  obtain ⟨h1, -, -, h4⟩ := remove_wellFormed_of_two hwf he h2
  have hnd : l.Nodup := by
    match l, hwf with
    | _ :: _, hwf => exact hwf.2.1
  refine ⟨h4, ?_, ?_, List.erase_sublist e l, ?_, ?_, ?_⟩
  · intro fuel hf
    rw [traverse_of_wellFormed hwf, List.take_of_length_le hf]
  · intro fuel hf
    rw [traverse_of_wellFormed h4, List.take_of_length_le]
    rw [List.length_erase_of_mem he]
    exact hf
  · intro x
    rw [hnd.mem_erase_iff, and_comm]
  · intro hh; rw [h1, if_pos hh]
  · intro hh; rw [h1, if_neg hh]

/-- An instance of C4: removing the head `1` of the list `1, 2, 3`. -/
theorem remove_list_detaches_entry_witness :
    WellFormed tripleList [1, 2, 3] ∧ 2 ≤ [1, 2, 3].length ∧ 1 ∈ [1, 2, 3] ∧
      (WellFormed (remove_NAME_list tripleList 1) ([1, 2, 3].erase 1) ∧
      (∀ fuel, [1, 2, 3].length ≤ fuel → traverse tripleList fuel = [1, 2, 3]) ∧
      (∀ fuel, [1, 2, 3].length - 1 ≤ fuel →
        traverse (remove_NAME_list tripleList 1) fuel = [1, 2, 3].erase 1) ∧
      ([1, 2, 3].erase 1).Sublist [1, 2, 3] ∧
      (∀ x, x ∈ [1, 2, 3].erase 1 ↔ x ∈ [1, 2, 3] ∧ x ≠ 1) ∧
      (tripleList.head = some 1 →
        (remove_NAME_list tripleList 1).head = tripleList.next 1) ∧
      (tripleList.head ≠ some 1 →
        (remove_NAME_list tripleList 1).head = tripleList.head)) :=
  ⟨by decide, by decide, by decide,
    remove_list_detaches_entry tripleList [1, 2, 3] 1 (by decide) (by decide) (by decide)⟩

/-- C5: on a well-formed list whose sole member is the entry,
`remove_NAME_list` yields the empty list (head `NULL`); and removing the
members of any well-formed list one by one, in any order, ends with head
`NULL`. -/
theorem remove_list_last_empties (s : LinkList) (l : List Nat) (hwf : WellFormed s l) :
    (∀ e, l = [e] → (remove_NAME_list s e).head = none) ∧
      ∀ order : List Nat, order.Perm l →
        (order.foldl remove_NAME_list s).head = none := by
  constructor
  · intro e hl
    subst hl
    exact (remove_wellFormed_single hwf).1
  · intro order hp
    exact remove_all_wellFormed order s l hwf hp

/-- An instance of C5: removing the sole member of `singleList`, and the
members of `tripleList` in the order `2, 3, 1`. -/
theorem remove_list_last_empties_witness :
    WellFormed tripleList [1, 2, 3] ∧
      (remove_NAME_list singleList 1).head = none ∧
      ([2, 3, 1].foldl remove_NAME_list tripleList).head = none :=
  ⟨by decide,
    (remove_list_last_empties singleList [1] (by decide)).1 1 rfl,
    (remove_list_last_empties tripleList [1, 2, 3] (by decide)).2 [2, 3, 1] (by decide)⟩

/-! ## Properties of the Index Hash-Chain Toolkit -/

/-- A chain stays a chain when `hash_next` is kept on its buffers, `hash_prev`
is kept on all but the first, and the first one's `hash_prev` is the new
predecessor `q`. -/
theorem isChain_reprev {hn hp hn1 hp1 : Nat → Ptr} (l : List Nat) (p q start : Ptr)
    (hnext : ∀ y ∈ l, hn1 y = hn y) (hprev : ∀ y ∈ l.tail, hp1 y = hp y)
    (hfirst : ∀ y ∈ l.head?, hp1 y = q) (h : IsChain hn hp p start l) :
    IsChain hn1 hp1 q start l := by
  induction l generalizing p q start with
  | nil => exact h
  | cons x xs ih =>
    simp only [IsChain] at h ⊢
    refine ⟨h.1, hfirst x (by simp), ?_⟩
    rw [hnext x (by simp)]
    cases xs with
    | nil => exact h.2.2
    | cons z zs =>
      refine ih (some x) (some x) (hn x) (fun y hy => hnext y (by simp at hy ⊢; tauto))
        (fun y hy => hprev y (by simp at hy ⊢; tauto)) ?_ h.2.2
      intro y hy
      obtain rfl : z = y := by simpa using hy
      rw [hprev z (by simp)]
      exact h.2.2.2.1

/-- Frame rule: a chain only depends on the links of its own buffers. -/
theorem isChain_frame {hn hp hn1 hp1 : Nat → Ptr} (l : List Nat) (p start : Ptr)
    (hnext : ∀ y ∈ l, hn1 y = hn y) (hprev : ∀ y ∈ l, hp1 y = hp y)
    (h : IsChain hn hp p start l) : IsChain hn1 hp1 p start l := by
  refine isChain_reprev l p p start hnext (fun y hy => hprev y (List.mem_of_mem_tail hy)) ?_ h
  intro y hy
  cases l with
  | nil => simp at hy
  | cons x xs =>
    obtain rfl : x = y := by simpa using hy
    rw [hprev x (by simp)]
    exact h.2.1

theorem chain_walk_of_isChain {hn hp : Nat → Ptr} (l : List Nat) (p start : Ptr)
    (h : IsChain hn hp p start l) (fuel : Nat) :
    chain_walk hn fuel start = l.take fuel := by
  induction l generalizing p start fuel with
  | nil =>
    simp only [IsChain] at h
    subst h
    cases fuel <;> simp [chain_walk]
  | cons x xs ih =>
    simp only [IsChain] at h
    cases fuel with
    | zero => simp [chain_walk]
    | succ k => simp [chain_walk, h.1, ih _ _ h.2.2 k]

/-- The search loop over a chain none of whose buffers carries the key ends
with `NULL`, given fuel for the whole chain. -/
theorem chain_find_none {hn hp : Nat → Ptr} {key : Nat → Int} {k : Int} (l : List Nat)
    (p start : Ptr) (h : IsChain hn hp p start l) (hk : ∀ y ∈ l, key y ≠ k)
    (fuel : Nat) (hf : l.length ≤ fuel) :
    chain_find hn key k fuel start = some none := by
  induction l generalizing p start fuel with
  | nil =>
    simp only [IsChain] at h
    subst h
    cases fuel <;> simp [chain_find]
  | cons x xs ih =>
    simp only [IsChain] at h
    cases fuel with
    | zero => simp at hf
    | succ n =>
      simp only [h.1, chain_find, hk x (by simp), if_false]
      exact ih _ _ h.2.2 (fun y hy => hk y (by simp [hy])) n (by simpa using hf)

/-- Removing from a chain a buffer `e` that is not its first: the predecessor
`q` takes over `e`'s successor, and that successor's `hash_prev` becomes `q`. -/
theorem isChain_unlink {hn hp hn1 hp1 : Nat → Ptr} (L l₂ : List Nat) (q e : Nat)
    (p start : Ptr) (hnd : (L ++ q :: e :: l₂).Nodup)
    (hnext : ∀ y, y ≠ q → y ≠ e → hn1 y = hn y) (hq : hn1 q = hn e)
    (hprev : ∀ y, y ≠ e → (∀ z ∈ l₂.head?, y ≠ z) → hp1 y = hp y)
    (hsucc : ∀ z ∈ l₂.head?, hp1 z = some q)
    (h : IsChain hn hp p start (L ++ q :: e :: l₂)) :
    IsChain hn1 hp1 p start (L ++ q :: l₂) := by
  induction L generalizing p start with
  | nil =>
    simp only [List.nil_append, IsChain] at h ⊢
    simp only [List.nil_append, List.nodup_cons, List.mem_cons, not_or] at hnd
    obtain ⟨⟨hqe, hql⟩, hel, hl⟩ := hnd
    have hqz : ∀ z ∈ l₂.head?, q ≠ z := by
      rintro z hz rfl
      exact hql (List.mem_of_mem_head? hz)
    refine ⟨h.1, by rw [hprev q hqe hqz]; exact h.2.1, ?_⟩
    rw [hq]
    refine isChain_reprev l₂ (some e) (some q) (hn e) ?_ ?_ hsucc h.2.2.2.2
    · intro y hy
      exact hnext y (by rintro rfl; exact hql hy) (by rintro rfl; exact hel hy)
    · intro y hy
      refine hprev y (by rintro rfl; exact hel (List.mem_of_mem_tail hy)) ?_
      rintro z hz rfl
      cases l₂ with
      | nil => simp at hz
      | cons w ws =>
        obtain rfl : w = y := by simpa using hz
        exact (List.nodup_cons.mp hl).1 (by simpa using hy)
  | cons x xs ih =>
    simp only [List.cons_append, IsChain] at h ⊢
    simp only [List.cons_append, List.nodup_cons] at hnd
    have hxq : x ≠ q := by rintro rfl; exact hnd.1 (by simp)
    have hxe : x ≠ e := by rintro rfl; exact hnd.1 (by simp)
    have hxz : ∀ z ∈ l₂.head?, x ≠ z := by
      rintro z hz rfl
      exact hnd.1 (by simp [List.mem_of_mem_head? hz])
    refine ⟨h.1, by rw [hprev x hxe hxz]; exact h.2.1, ?_⟩
    rw [hnext x hxq hxe]
    exact ih (some x) (hn x) hnd.2 h.2.2

theorem isChain_head {hn hp : Nat → Ptr} {l : List Nat} {p start : Ptr}
    (h : IsChain hn hp p start l) : start = l.head? := by
  cases l with
  | nil => exact h
  | cons x xs => exact h.1

/-- The part of a chain after a buffer `q` is the chain that starts at
`q.hash_next` with predecessor `q`. -/
theorem isChain_after {hn hp : Nat → Ptr} (L l₂ : List Nat) (q : Nat) (p start : Ptr)
    (h : IsChain hn hp p start (L ++ q :: l₂)) : IsChain hn hp (some q) (hn q) l₂ := by
  induction L generalizing p start with
  | nil => exact h.2.2
  | cons x xs ih => exact ih _ _ h.2.2

/-! ### Pointwise effect of the two hash-table functions -/

theorem insert_hash_table_apply (hash : Int → Bucket) (c : HashTable) (e : Nat)
    (b : Bucket) :
    (insert_NAME_hash_table hash c e).hash_table b =
      if b = hash (c.key e) then some e else c.hash_table b := by
  simp only [insert_NAME_hash_table, Function.update_apply]

theorem insert_hash_next_apply (hash : Int → Bucket) (c : HashTable) (e y : Nat) :
    (insert_NAME_hash_table hash c e).hash_next y =
      if y = e then c.hash_table (hash (c.key e)) else c.hash_next y := by
  simp only [insert_NAME_hash_table, Function.update_apply]

theorem insert_hash_prev_apply (hash : Int → Bucket) (c : HashTable) (e y : Nat) :
    (insert_NAME_hash_table hash c e).hash_prev y =
      if c.hash_table (hash (c.key e)) = some y then some e
      else if y = e then none else c.hash_prev y := by
  simp only [insert_NAME_hash_table, Function.update_same]
  cases h : c.hash_table (hash (c.key e)) with
  | none => simp [Function.update_apply]
  | some n =>
    simp only [Function.update_apply, Option.some.injEq]
    by_cases hy : y = n
    · simp [hy]
    · simp [hy, Ne.symm hy]

theorem insert_key (hash : Int → Bucket) (c : HashTable) (e : Nat) :
    (insert_NAME_hash_table hash c e).key = c.key := rfl

theorem remove_hash_table_apply (hash : Int → Bucket) (c : HashTable) (e : Nat)
    (b : Bucket) :
    (remove_NAME_hash_table hash c e).hash_table b =
      if c.hash_prev e = none ∧ b = hash (c.key e) then c.hash_next e
      else c.hash_table b := by
  simp only [remove_NAME_hash_table]
  cases h : c.hash_prev e with
  | none => simp [Function.update_apply]
  | some p => simp

theorem remove_hash_next_apply (hash : Int → Bucket) (c : HashTable) (e y : Nat) :
    (remove_NAME_hash_table hash c e).hash_next y =
      if y = e then none else if c.hash_prev e = some y then c.hash_next e
      else c.hash_next y := by
  simp only [remove_NAME_hash_table]
  cases h : c.hash_prev e with
  | none => simp [Function.update_apply]
  | some p =>
    simp only [Function.update_apply, Option.some.injEq]
    by_cases hy : y = e
    · simp [hy]
    · by_cases hp : y = p
      · simp [hy, hp]
      · simp [hy, hp, Ne.symm hp]

theorem remove_hash_prev_apply (hash : Int → Bucket) (c : HashTable) (e y : Nat) :
    (remove_NAME_hash_table hash c e).hash_prev y =
      if y = e then none else if c.hash_next e = some y then c.hash_prev e
      else c.hash_prev y := by
  have hsame : ∀ p : Nat, Function.update c.hash_next p (c.hash_next e) e = c.hash_next e := by
    intro p
    by_cases hp : e = p
    · simp [hp]
    · simp [Function.update_noteq hp]
  simp only [remove_NAME_hash_table]
  by_cases hy : y = e
  · subst hy
    simp only [Function.update_same, if_true]
  · cases h : c.hash_prev e with
    | none =>
      cases hn : c.hash_next e with
      | none => simp [Function.update_apply, hy]
      | some n =>
        by_cases hyn : y = n
        · simp [Function.update_apply, hy, hyn, h]
        · simp [Function.update_apply, hy, hyn, Ne.symm hyn]
    | some p =>
      simp only [hsame]
      cases hn : c.hash_next e with
      | none => simp [Function.update_apply, hy]
      | some n =>
        by_cases hyn : y = n
        · simp [Function.update_apply, hy, hyn, h]
        · simp [Function.update_apply, hy, hyn, Ne.symm hyn]

theorem remove_key (hash : Int → Bucket) (c : HashTable) (e : Nat) :
    (remove_NAME_hash_table hash c e).key = c.key := by
  simp only [remove_NAME_hash_table]
  cases c.hash_prev e <;> rfl

/-! ### Well-formed tables -/

theorem tableWF_bucket_eq {hash : Int → Bucket} {c : HashTable} {chains : Bucket → List Nat}
    (hwf : TableWF hash c chains) {b b1 : Bucket} {y : Nat} (h : y ∈ chains b)
    (h1 : y ∈ chains b1) : b1 = b := by
  rw [← (hwf b).2.2 y h, ← (hwf b1).2.2 y h1]

theorem tableWF_head_mem {hash : Int → Bucket} {c : HashTable} {chains : Bucket → List Nat}
    (hwf : TableWF hash c chains) {b : Bucket} {y : Nat} (h : c.hash_table b = some y) :
    y ∈ chains b := by
  have := isChain_head (hwf b).1
  rw [h] at this
  exact List.mem_of_mem_head? this.symm

theorem not_head_of_mem_tail {l : List Nat} (hnd : l.Nodup) {y : Nat} (hy : y ∈ l.tail) :
    l.head? ≠ some y := by
  cases l with
  | nil => simp
  | cons x xs =>
    simp only [List.head?_cons, ne_eq, Option.some.injEq]
    rintro rfl
    exact (List.nodup_cons.mp hnd).1 hy

theorem bucket_chain_of_tableWF {hash : Int → Bucket} {c : HashTable}
    {chains : Bucket → List Nat} (hwf : TableWF hash c chains) (b : Bucket) (fuel : Nat)
    (hf : (chains b).length ≤ fuel) : bucket_chain c fuel b = chains b := by
  unfold bucket_chain
  rw [chain_walk_of_isChain _ _ _ (hwf b).1, List.take_of_length_le hf]

/-- Inserting a buffer that is in no chain pushes it at the head of the chain
of its bucket and keeps the table well formed. -/
theorem insert_tableWF {hash : Int → Bucket} {c : HashTable} {chains : Bucket → List Nat}
    {e : Nat} (hwf : TableWF hash c chains) (he : ∀ b, e ∉ chains b) :
    TableWF hash (insert_NAME_hash_table hash c e)
      (Function.update chains (hash (c.key e)) (e :: chains (hash (c.key e)))) := by
  intro b1
  by_cases hb : b1 = hash (c.key e)
  · subst hb
    simp only [Function.update_same, insert_key]
    refine ⟨⟨?_, ?_, ?_⟩, ?_, ?_⟩
    · rw [insert_hash_table_apply, if_pos rfl]
    · rw [insert_hash_prev_apply, if_neg, if_pos rfl]
      intro hc
      exact he _ (tableWF_head_mem hwf hc)
    · rw [insert_hash_next_apply, if_pos rfl]
      refine isChain_reprev _ none (some e) _ ?_ ?_ ?_ (hwf _).1
      · intro y hy
        rw [insert_hash_next_apply, if_neg]
        rintro rfl; exact he _ hy
      · intro y hy
        rw [insert_hash_prev_apply, if_neg, if_neg]
        · rintro rfl; exact he _ (List.mem_of_mem_tail hy)
        · rw [isChain_head (hwf _).1]
          exact not_head_of_mem_tail (hwf _).2.1 hy
      · intro y hy
        rw [insert_hash_prev_apply, if_pos]
        rw [isChain_head (hwf _).1]
        exact hy
    · exact List.nodup_cons.mpr ⟨he _, (hwf _).2.1⟩
    · intro y hy
      rcases List.mem_cons.mp hy with rfl | hy
      · rfl
      · exact (hwf _).2.2 y hy
  · simp only [Function.update_noteq hb, insert_key]
    refine ⟨?_, (hwf b1).2.1, (hwf b1).2.2⟩
    rw [insert_hash_table_apply, if_neg hb]
    refine isChain_frame _ _ _ ?_ ?_ (hwf b1).1
    · intro y hy
      rw [insert_hash_next_apply, if_neg]
      rintro rfl; exact he _ hy
    · intro y hy
      rw [insert_hash_prev_apply, if_neg, if_neg]
      · rintro rfl; exact he _ hy
      · intro hc
        exact hb (tableWF_bucket_eq hwf (tableWF_head_mem hwf hc) hy)

theorem insert_tableWF_key {hash : Int → Bucket} {c : HashTable}
    {chains : Bucket → List Nat} {e : Nat} (k : Int) (hk : c.key e = k)
    (hwf : TableWF hash c chains) (he : ∀ b, e ∉ chains b) :
    TableWF hash (insert_NAME_hash_table hash c e)
      (Function.update chains (hash k) (e :: chains (hash k))) := by
  subst hk
  exact insert_tableWF hwf he

/-- Removing a buffer from the chain of its bucket erases it from that chain
and keeps the table well formed. -/
theorem remove_tableWF {hash : Int → Bucket} {c : HashTable} {chains : Bucket → List Nat}
    {e : Nat} (hwf : TableWF hash c chains) (he : e ∈ chains (hash (c.key e))) :
    TableWF hash (remove_NAME_hash_table hash c e)
      (Function.update chains (hash (c.key e)) ((chains (hash (c.key e))).erase e)) := by
  obtain ⟨l₁, l₂, hl⟩ := List.append_of_mem he
  have hch := (hwf (hash (c.key e))).1
  have hnd := (hwf (hash (c.key e))).2.1
  rw [hl] at hch hnd
  have hel₁ : e ∉ l₁ := by
    rw [List.nodup_append] at hnd
    intro hc
    exact hnd.2.2 hc (by simp)
  have hel₂ : e ∉ l₂ := by
    rw [List.nodup_append] at hnd
    exact (List.nodup_cons.mp hnd.2.1).1
  have hnd₂ : l₂.Nodup := by
    rw [List.nodup_append] at hnd
    exact (List.nodup_cons.mp hnd.2.1).2
  have herase : (chains (hash (c.key e))).erase e = l₁ ++ l₂ := by
    rw [hl, List.erase_append_right _ hel₁, List.erase_cons_head]
  have hnext : c.hash_next e = l₂.head? := isChain_head (isChain_after l₁ l₂ e _ _ hch)
  have hnextmem : ∀ y, c.hash_next e = some y → y ∈ chains (hash (c.key e)) := by
    intro y hy
    rw [hnext] at hy
    rw [hl]
    simp [List.mem_of_mem_head? hy]
  have hprevmem : ∀ y, c.hash_prev e = some y → y ∈ chains (hash (c.key e)) := by
    intro y hy
    rcases List.eq_nil_or_concat l₁ with h0 | ⟨L, q, h0⟩
    · subst h0
      have := hch.2.1
      rw [hy] at this
      cases this
    · rw [List.concat_eq_append] at h0
      subst h0
      rw [List.append_assoc] at hch
      have := (isChain_after L (e :: l₂) q _ _ hch).2.1
      rw [hy] at this
      cases this
      rw [hl]; simp
  intro b1
  by_cases hb : b1 = hash (c.key e)
  · subst hb
    simp only [Function.update_same, remove_key]
    rw [herase]
    refine ⟨?_, ?_, ?_⟩
    · rcases List.eq_nil_or_concat l₁ with h0 | ⟨L, q, h0⟩
      · subst h0
        have hpe : c.hash_prev e = none := hch.2.1
        rw [remove_hash_table_apply, if_pos ⟨hpe, rfl⟩, List.nil_append]
        refine isChain_reprev l₂ (some e) none _ ?_ ?_ ?_ hch.2.2
        · intro y hy
          rw [remove_hash_next_apply, if_neg (by rintro rfl; exact hel₂ hy), hpe]
          simp
        · intro y hy
          rw [remove_hash_prev_apply,
            if_neg (by rintro rfl; exact hel₂ (List.mem_of_mem_tail hy)), if_neg]
          rw [hnext]
          exact not_head_of_mem_tail hnd₂ hy
        · intro y hy
          rw [remove_hash_prev_apply,
            if_neg (by rintro rfl; exact hel₂ (List.mem_of_mem_head? hy)), if_pos, hpe]
          rw [hnext]; exact hy
      · rw [List.concat_eq_append] at h0
        subst h0
        rw [List.append_assoc] at hch hnd
        have hpe : c.hash_prev e = some q := (isChain_after L (e :: l₂) q _ _ hch).2.1
        have hqe : q ≠ e := by rintro rfl; exact hel₁ (by simp)
        rw [remove_hash_table_apply, if_neg (by simp [hpe]), List.append_assoc]
        refine isChain_unlink L l₂ q e none _ hnd ?_ ?_ ?_ ?_ hch
        · intro y hyq hye
          rw [remove_hash_next_apply, if_neg hye, if_neg]
          rw [hpe]; simpa using Ne.symm hyq
        · rw [remove_hash_next_apply, if_neg hqe, if_pos hpe]
        · intro y hye hyz
          rw [remove_hash_prev_apply, if_neg hye, if_neg]
          rw [hnext]
          intro hc
          exact hyz y hc rfl
        · intro z hz
          rw [remove_hash_prev_apply,
            if_neg (by rintro rfl; exact hel₂ (List.mem_of_mem_head? hz)), if_pos, hpe]
          rw [hnext]; exact hz
    · rw [← herase]; exact (hwf _).2.1.erase e
    · intro y hy
      have : y ∈ chains (hash (c.key e)) := by
        rw [← herase] at hy
        exact List.mem_of_mem_erase hy
      exact (hwf _).2.2 y this
  · simp only [Function.update_noteq hb, remove_key]
    refine ⟨?_, (hwf b1).2.1, (hwf b1).2.2⟩
    rw [remove_hash_table_apply, if_neg (fun hc => hb hc.2)]
    refine isChain_frame _ _ _ ?_ ?_ (hwf b1).1
    · intro y hy
      rw [remove_hash_next_apply, if_neg, if_neg]
      · intro hc
        exact hb (tableWF_bucket_eq hwf (hprevmem y hc) hy)
      · rintro rfl
        exact hb (tableWF_bucket_eq hwf he hy)
    · intro y hy
      rw [remove_hash_prev_apply, if_neg, if_neg]
      · intro hc
        exact hb (tableWF_bucket_eq hwf (hnextmem y hc) hy)
      · rintro rfl
        exact hb (tableWF_bucket_eq hwf he hy)

theorem sampleTable_wf : TableWF lowBits sampleTable sampleChains := by
  intro b
  by_cases hb : b = 0
  · subst hb
    refine ⟨by decide, by decide, by decide⟩
  · refine ⟨?_, ?_, ?_⟩ <;> simp [sampleChains, sampleTable, IsChain, hb]

theorem sampleChains_not_mem (e : Nat) (h1 : e ≠ 1) (h2 : e ≠ 2) (b : Bucket) :
    e ∉ sampleChains b := by
  unfold sampleChains
  split <;> simp [h1, h2]

/-- Changing the key of a buffer that is in no chain keeps the table well formed. -/
theorem rekey_tableWF {hash : Int → Bucket} {c : HashTable} {chains : Bucket → List Nat}
    {e : Nat} (k : Int) (hwf : TableWF hash c chains) (he : ∀ b, e ∉ chains b) :
    TableWF hash { c with key := Function.update c.key e k } chains := by
  intro b
  refine ⟨(hwf b).1, (hwf b).2.1, ?_⟩
  intro y hy
  have hye : y ≠ e := by rintro rfl; exact he b hy
  simp only [Function.update_noteq hye]
  exact (hwf b).2.2 y hy

theorem head?_erase_of_ne {l : List Nat} {e : Nat} (h : l.head? ≠ some e) :
    (l.erase e).head? = l.head? := by
  cases l with
  | nil => rfl
  | cons x xs =>
    have hx : x ≠ e := by simpa using h
    rw [List.erase_cons_tail (by simpa using hx)]
    rfl

/-! ### The claims about the Index Hash-Chain Toolkit -/

/-- C6: on a well-formed table and an entry `e` that is in no chain,
`insert_NAME_hash_table` pushes `e` at the head of bucket `hash(e.key)`: that
bucket's chain becomes `e` followed by the old chain, every other bucket's
chain is unchanged, and a chain walk of bucket `hash(e.key)` finds `e` (the
search loop for `e.key` stops at `e`). -/
theorem insert_hash_pushes_at_head (hash : Int → Bucket) (c : HashTable)
    (chains : Bucket → List Nat) (e : Nat) (hwf : TableWF hash c chains)
    (he : ∀ b, e ∉ chains b) :
    TableWF hash (insert_NAME_hash_table hash c e)
        (Function.update chains (hash (c.key e)) (e :: chains (hash (c.key e)))) ∧
      (∀ b fuel, (chains b).length ≤ fuel → bucket_chain c fuel b = chains b) ∧
      (∀ fuel, (chains (hash (c.key e))).length + 1 ≤ fuel →
        bucket_chain (insert_NAME_hash_table hash c e) fuel (hash (c.key e)) =
          e :: chains (hash (c.key e))) ∧
      (∀ b fuel, b ≠ hash (c.key e) → (chains b).length ≤ fuel →
        bucket_chain (insert_NAME_hash_table hash c e) fuel b = chains b) ∧
      (∀ fuel, 1 ≤ fuel →
        e ∈ bucket_chain (insert_NAME_hash_table hash c e) fuel (hash (c.key e)) ∧
        chain_find (insert_NAME_hash_table hash c e).hash_next
          (insert_NAME_hash_table hash c e).key (c.key e) fuel
          ((insert_NAME_hash_table hash c e).hash_table (hash (c.key e))) =
            some (some e)) := by
  have hwf1 := insert_tableWF hwf he
  refine ⟨hwf1, fun b fuel hf => bucket_chain_of_tableWF hwf b fuel hf, ?_, ?_, ?_⟩
  · intro fuel hf
    rw [bucket_chain_of_tableWF hwf1 _ fuel (by simpa using hf)]
    simp
  · intro b fuel hb hf
    rw [bucket_chain_of_tableWF hwf1 _ fuel (by simpa [Function.update_noteq hb] using hf)]
    simp [Function.update_noteq hb]
  · intro fuel hf
    obtain ⟨k, rfl⟩ : ∃ k, fuel = k + 1 := ⟨fuel - 1, by omega⟩
    constructor
    · unfold bucket_chain
      rw [insert_hash_table_apply, if_pos rfl]
      simp [chain_walk]
    · rw [insert_hash_table_apply, if_pos rfl, insert_key]
      simp [chain_find]

/-- An instance of C6: inserting buffer `3` into `sampleTable`. -/
theorem insert_hash_pushes_at_head_witness :
    TableWF lowBits sampleTable sampleChains ∧ (∀ b, 3 ∉ sampleChains b) ∧
      bucket_chain (insert_NAME_hash_table lowBits sampleTable 3) 3
        (lowBits (sampleTable.key 3)) = [3, 1, 2] ∧
      TableWF lowBits (insert_NAME_hash_table lowBits sampleTable 3)
        (Function.update sampleChains (lowBits (sampleTable.key 3))
          (3 :: sampleChains (lowBits (sampleTable.key 3)))) :=
  ⟨sampleTable_wf, sampleChains_not_mem 3 (by decide) (by decide), by decide,
    (insert_hash_pushes_at_head lowBits sampleTable sampleChains 3 sampleTable_wf
      (sampleChains_not_mem 3 (by decide) (by decide))).1⟩

/-- C7: on a well-formed table and an entry `e` that is a member of bucket
`hash(e.key)`, `remove_NAME_hash_table` detaches exactly `e`: the bucket's
chain becomes the old chain with `e` erased (the others in their old order),
the bucket head becomes `e`'s successor when `e` was first and is unchanged
otherwise, every other bucket's chain is unchanged, and `e.hash_prev` and
`e.hash_next` are both `NULL` afterwards. -/
theorem remove_hash_detaches_entry (hash : Int → Bucket) (c : HashTable)
    (chains : Bucket → List Nat) (e : Nat) (hwf : TableWF hash c chains)
    (he : e ∈ chains (hash (c.key e))) :
    TableWF hash (remove_NAME_hash_table hash c e)
        (Function.update chains (hash (c.key e)) ((chains (hash (c.key e))).erase e)) ∧
      (∀ b fuel, (chains b).length ≤ fuel → bucket_chain c fuel b = chains b) ∧
      (∀ fuel, (chains (hash (c.key e))).length - 1 ≤ fuel →
        bucket_chain (remove_NAME_hash_table hash c e) fuel (hash (c.key e)) =
          (chains (hash (c.key e))).erase e) ∧
      ((chains (hash (c.key e))).erase e).Sublist (chains (hash (c.key e))) ∧
      (∀ x, x ∈ (chains (hash (c.key e))).erase e ↔ x ∈ chains (hash (c.key e)) ∧ x ≠ e) ∧
      (c.hash_table (hash (c.key e)) = some e →
        (remove_NAME_hash_table hash c e).hash_table (hash (c.key e)) = c.hash_next e) ∧
      (c.hash_table (hash (c.key e)) ≠ some e →
        (remove_NAME_hash_table hash c e).hash_table (hash (c.key e)) =
          c.hash_table (hash (c.key e))) ∧
      (∀ b fuel, b ≠ hash (c.key e) → (chains b).length ≤ fuel →
        bucket_chain (remove_NAME_hash_table hash c e) fuel b = chains b) ∧
      (remove_NAME_hash_table hash c e).hash_prev e = none ∧
      (remove_NAME_hash_table hash c e).hash_next e = none := by
  have hwf1 := remove_tableWF hwf he
  have hnd := (hwf (hash (c.key e))).2.1
  have hhead1 := isChain_head (hwf1 (hash (c.key e))).1
  rw [Function.update_same] at hhead1
  refine ⟨hwf1, fun b fuel hf => bucket_chain_of_tableWF hwf b fuel hf, ?_,
    List.erase_sublist e _, ?_, ?_, ?_, ?_, ?_, ?_⟩
  · intro fuel hf
    rw [bucket_chain_of_tableWF hwf1 _ fuel
      (by simpa [List.length_erase_of_mem he] using hf)]
    simp
  · intro x
    rw [hnd.mem_erase_iff, and_comm]
  · intro hfirst
    have hpe : c.hash_prev e = none := by
      have hch := (hwf (hash (c.key e))).1
      have hh := isChain_head hch
      rw [hfirst] at hh
      cases hl : chains (hash (c.key e)) with
      | nil => rw [hl] at hh; simp at hh
      | cons x xs =>
        rw [hl] at hh hch
        obtain rfl : e = x := by simpa using hh
        exact hch.2.1
    rw [remove_hash_table_apply, if_pos ⟨hpe, rfl⟩]
  · intro hfirst
    rw [hhead1, head?_erase_of_ne, ← isChain_head (hwf _).1]
    rw [← isChain_head (hwf _).1]
    exact hfirst
  · intro b fuel hb hf
    rw [bucket_chain_of_tableWF hwf1 _ fuel (by simpa [Function.update_noteq hb] using hf)]
    simp [Function.update_noteq hb]
  · rw [remove_hash_prev_apply, if_pos rfl]
  · rw [remove_hash_next_apply, if_pos rfl]

/-- An instance of C7: removing the first buffer `1` of bucket `0` of `sampleTable`. -/
theorem remove_hash_detaches_entry_witness :
    TableWF lowBits sampleTable sampleChains ∧
      1 ∈ sampleChains (lowBits (sampleTable.key 1)) ∧
      bucket_chain (remove_NAME_hash_table lowBits sampleTable 1) 2
        (lowBits (sampleTable.key 1)) = [2] ∧
      TableWF lowBits (remove_NAME_hash_table lowBits sampleTable 1)
        (Function.update sampleChains (lowBits (sampleTable.key 1))
          ((sampleChains (lowBits (sampleTable.key 1))).erase 1)) :=
  ⟨sampleTable_wf, by decide, by decide,
    (remove_hash_detaches_entry lowBits sampleTable sampleChains 1 sampleTable_wf
      (by decide)).1⟩

/-- C8, as stated, fails: buffer `1` is the first of its chain in the
well-formed `sampleTable`; with its key `0` the call patches the head of bucket
`0`, with the key changed to `5` it patches the head of bucket `5` and leaves
bucket `0` pointing to the removed buffer. -/
theorem remove_hash_key_dependent_counterexample :
    TableWF lowBits sampleTable sampleChains ∧
      1 ∈ sampleChains (lowBits (sampleTable.key 1)) ∧
      (remove_NAME_hash_table lowBits sampleTable 1).hash_table 0 = some 2 ∧
      (remove_NAME_hash_table lowBits
        { sampleTable with key := Function.update sampleTable.key 1 5 } 1).hash_table 0 =
          some 1 ∧
      (remove_NAME_hash_table lowBits
        { sampleTable with key := Function.update sampleTable.key 1 5 } 1).hash_table 5 =
          some 2 ∧
      ¬ ∀ k : Int,
        (remove_NAME_hash_table lowBits
          { sampleTable with key := Function.update sampleTable.key 1 k } 1).hash_table =
            (remove_NAME_hash_table lowBits sampleTable 1).hash_table := by
  refine ⟨sampleTable_wf, by decide, by decide, by decide, by decide, ?_⟩
  intro h
  have h5 := congrFun (h 5) 0
  revert h5
  decide

/-- C8, amended: `remove_NAME_hash_table` detaches an entry that has a
predecessor in its chain (`hash_prev` not `NULL`) using only the entry's own
links: the bucket array and all links it produces are the same whatever value
the entry's key holds at the time of the call.  For an entry with `hash_prev ==
NULL` the same holds among the keys that hash to the same bucket, the bucket
whose head is patched being `hash(key)`. -/
theorem remove_hash_key_independent (hash : Int → Bucket) (c : HashTable) (e : Nat)
    (k : Int) (hk : c.hash_prev e ≠ none ∨ hash k = hash (c.key e)) :
    (remove_NAME_hash_table hash { c with key := Function.update c.key e k } e).hash_table =
        (remove_NAME_hash_table hash c e).hash_table ∧
      (remove_NAME_hash_table hash { c with key := Function.update c.key e k } e).hash_next =
        (remove_NAME_hash_table hash c e).hash_next ∧
      (remove_NAME_hash_table hash { c with key := Function.update c.key e k } e).hash_prev =
        (remove_NAME_hash_table hash c e).hash_prev := by
  refine ⟨?_, ?_, ?_⟩
  · funext b
    rw [remove_hash_table_apply, remove_hash_table_apply]
    rcases hk with hk | hk
    · simp [hk]
    · simp [hk]
  · funext y
    rw [remove_hash_next_apply, remove_hash_next_apply]
  · funext y
    rw [remove_hash_prev_apply, remove_hash_prev_apply]

/-- An instance of amended C8: buffer `2` of `sampleTable` has the predecessor
`1`; removing it gives the same table with its key changed to `5`. -/
theorem remove_hash_key_independent_witness :
    TableWF lowBits sampleTable sampleChains ∧
      2 ∈ sampleChains (lowBits (sampleTable.key 2)) ∧
      (sampleTable.hash_prev 2 ≠ none ∨ lowBits 5 = lowBits (sampleTable.key 2)) ∧
      (remove_NAME_hash_table lowBits
          { sampleTable with key := Function.update sampleTable.key 2 5 } 2).hash_table =
        (remove_NAME_hash_table lowBits sampleTable 2).hash_table ∧
      (remove_NAME_hash_table lowBits
          { sampleTable with key := Function.update sampleTable.key 2 5 } 2).hash_next =
        (remove_NAME_hash_table lowBits sampleTable 2).hash_next ∧
      (remove_NAME_hash_table lowBits
          { sampleTable with key := Function.update sampleTable.key 2 5 } 2).hash_prev =
        (remove_NAME_hash_table lowBits sampleTable 2).hash_prev :=
  ⟨sampleTable_wf, by decide, by decide,
    remove_hash_key_independent lowBits sampleTable 2 5 (by decide)⟩

/-- C10, as stated, fails: buffer `3` is in no chain of the well-formed
`sampleTable` and both its links are `NULL`, its key hashes to bucket `0`;
removing it sets the head of bucket `0` to `NULL`, and the chain `1, 2` of
that bucket is lost. -/
theorem remove_hash_unlinked_counterexample :
    TableWF lowBits sampleTable sampleChains ∧ (∀ b, 3 ∉ sampleChains b) ∧
      sampleTable.hash_prev 3 = none ∧ sampleTable.hash_next 3 = none ∧
      bucket_chain sampleTable 2 0 = [1, 2] ∧
      (remove_NAME_hash_table lowBits sampleTable 3).hash_table 0 = none ∧
      bucket_chain (remove_NAME_hash_table lowBits sampleTable 3) 2 0 = [] :=
  ⟨sampleTable_wf, sampleChains_not_mem 3 (by decide) (by decide), by decide, by decide,
    by decide, by decide, by decide⟩

/-- C10, amended: on a well-formed table and an entry `e` that is in no chain,
with `hash_prev` and `hash_next` both `NULL`, `remove_NAME_hash_table` changes
no link and no key, and no bucket head other than that of bucket `hash(e.key)`,
which it sets to `NULL`: the chain of every other bucket is unchanged, and the
whole table is unchanged when bucket `hash(e.key)` is empty. -/
theorem remove_hash_unlinked_effect (hash : Int → Bucket) (c : HashTable)
    (chains : Bucket → List Nat) (e : Nat) (hwf : TableWF hash c chains)
    (hp : c.hash_prev e = none) (hn : c.hash_next e = none) :
    remove_NAME_hash_table hash c e =
        { c with hash_table := Function.update c.hash_table (hash (c.key e)) none } ∧
      (∀ b fuel, b ≠ hash (c.key e) → (chains b).length ≤ fuel →
        bucket_chain (remove_NAME_hash_table hash c e) fuel b = chains b) ∧
      (∀ fuel, bucket_chain (remove_NAME_hash_table hash c e) fuel (hash (c.key e)) = []) ∧
      (chains (hash (c.key e)) = [] → remove_NAME_hash_table hash c e = c) := by
  have heq : remove_NAME_hash_table hash c e =
      { c with hash_table := Function.update c.hash_table (hash (c.key e)) none } := by
    have h1 : Function.update c.hash_next e none = c.hash_next := by
      rw [← hn]; exact Function.update_eq_self e c.hash_next
    have h2 : Function.update c.hash_prev e none = c.hash_prev := by
      rw [← hp]; exact Function.update_eq_self e c.hash_prev
    simp [remove_NAME_hash_table, hp, hn, h1, h2]
  refine ⟨heq, ?_, ?_, ?_⟩
  · intro b fuel hb hf
    rw [heq, ← bucket_chain_of_tableWF hwf b fuel hf]
    simp [bucket_chain, Function.update_noteq hb]
  · intro fuel
    rw [heq]
    cases fuel <;> simp [bucket_chain, chain_walk]
  · intro hempty
    rw [heq]
    have hnone : c.hash_table (hash (c.key e)) = none := by
      have := isChain_head (hwf (hash (c.key e))).1
      rw [hempty] at this
      exact this
    have h3 : Function.update c.hash_table (hash (c.key e)) none = c.hash_table := by
      rw [← hnone]; exact Function.update_eq_self _ c.hash_table
    rw [h3]

/-- An instance of amended C10: buffer `4` of `sampleTable` is unlinked and its
key hashes to the empty bucket `5`; removing it changes nothing. -/
theorem remove_hash_unlinked_effect_witness :
    TableWF lowBits sampleTable sampleChains ∧ (∀ b, 4 ∉ sampleChains b) ∧
      sampleTable.hash_prev 4 = none ∧ sampleTable.hash_next 4 = none ∧
      sampleChains (lowBits (sampleTable.key 4)) = [] ∧
      remove_NAME_hash_table lowBits sampleTable 4 = sampleTable :=
  ⟨sampleTable_wf, sampleChains_not_mem 4 (by decide) (by decide), by decide, by decide,
    by decide,
    (remove_hash_unlinked_effect lowBits sampleTable sampleChains 4 sampleTable_wf
      (by decide) (by decide)).2.2.2 (by decide)⟩

/-! ### The rehash law -/

/-- The chains after `cache_rehash`: the buffer is erased from the chain of
bucket `hash(old_idx)` and then pushed at the head of bucket `hash(new_idx)`. -/
theorem rehash_tableWF {hash : Int → Bucket} {c : HashTable} {chains : Bucket → List Nat}
    {buf : Nat} (new_idx : Int) (hwf : TableWF hash c chains)
    (hmem : buf ∈ chains (hash (c.key buf))) :
    (∀ b, buf ∉ Function.update chains (hash (c.key buf))
        ((chains (hash (c.key buf))).erase buf) b) ∧
      TableWF hash (cache_rehash hash c buf new_idx)
        (Function.update
          (Function.update chains (hash (c.key buf)) ((chains (hash (c.key buf))).erase buf))
          (hash new_idx)
          (buf :: Function.update chains (hash (c.key buf))
            ((chains (hash (c.key buf))).erase buf) (hash new_idx))) := by
  have hwfR := remove_tableWF hwf hmem
  have hnotR : ∀ b, buf ∉ Function.update chains (hash (c.key buf))
      ((chains (hash (c.key buf))).erase buf) b := by
    intro b
    by_cases hb : b = hash (c.key buf)
    · subst hb
      rw [Function.update_same]
      exact (hwf _).2.1.not_mem_erase
    · rw [Function.update_noteq hb]
      intro hc
      exact hb (tableWF_bucket_eq hwf hmem hc)
  have hwfK := rekey_tableWF new_idx hwfR hnotR
  exact ⟨hnotR, insert_tableWF_key new_idx (Function.update_same _ _ _) hwfK hnotR⟩

theorem rehash_key (hash : Int → Bucket) (c : HashTable) (buf : Nat) (new_idx : Int) :
    (cache_rehash hash c buf new_idx).key = Function.update c.key buf new_idx := by
  simp only [cache_rehash, insert_key, remove_key]

theorem rehash_head (hash : Int → Bucket) (c : HashTable) (buf : Nat) (new_idx : Int) :
    (cache_rehash hash c buf new_idx).hash_table (hash new_idx) = some buf := by
  simp only [cache_rehash, insert_hash_table_apply, Function.update_same, if_true]

/-- C9, as stated, fails for `new_idx = old_idx`: buffer `1` of the well-formed
`sampleTable` is indexed under `0` and no other buffer carries `0`; after
`cache_rehash` to the same index `0` the lookup of the old index returns the
buffer, not none. -/
theorem rehash_same_index_counterexample :
    TableWF lowBits sampleTable sampleChains ∧ 1 ∈ sampleChains (lowBits 0) ∧
      sampleTable.key 1 = 0 ∧ (∀ y, y ≠ 1 → sampleTable.key y ≠ 0) ∧
      cache_lookup lowBits (cache_rehash lowBits sampleTable 1 0) 3 0 = some (some 1) ∧
      ∀ fuel, cache_lookup lowBits (cache_rehash lowBits sampleTable 1 0) fuel 0 ≠
        some none := by
  refine ⟨sampleTable_wf, by decide, by decide, ?_, by decide, ?_⟩
  · intro y hy
    simp only [sampleTable]
    split_ifs <;> simp_all
  · intro fuel
    cases fuel with
    | zero => decide
    | succ k =>
      have h : cache_lookup lowBits (cache_rehash lowBits sampleTable 1 0) (k + 1) 0 =
          some (some 1) := by
        unfold cache_lookup
        rw [rehash_head, rehash_key]
        simp [chain_find]
      rw [h]
      decide

/-- C9, amended (rehash law): on a well-formed cache table, for a buffer
indexed under `old_idx` and any `new_idx`, `cache_rehash` makes a chain-walk
lookup of `new_idx` return that buffer, and, when `new_idx` differs from
`old_idx` and no other buffer in a chain carries `old_idx`, a lookup of
`old_idx` return none; afterwards the table is well formed, the buffer occurs
exactly once across all chains (in bucket `hash(new_idx)`) and every other
entry is in the chain of a bucket exactly when it was before. -/
theorem rehash_law (hash : Int → Bucket) (c : HashTable) (chains : Bucket → List Nat)
    (buf : Nat) (old_idx new_idx : Int) (hwf : TableWF hash c chains)
    (hmem : buf ∈ chains (hash old_idx)) (hkey : c.key buf = old_idx) :
    ∃ chains1 : Bucket → List Nat,
      TableWF hash (cache_rehash hash c buf new_idx) chains1 ∧
      (∀ fuel, 1 ≤ fuel →
        cache_lookup hash (cache_rehash hash c buf new_idx) fuel new_idx =
          some (some buf)) ∧
      (new_idx ≠ old_idx → (∀ b, ∀ y ∈ chains b, y ≠ buf → c.key y ≠ old_idx) →
        ∀ fuel, (chains (hash old_idx)).length ≤ fuel →
          cache_lookup hash (cache_rehash hash c buf new_idx) fuel old_idx = some none) ∧
      (∀ b, (chains1 b).count buf = if b = hash new_idx then 1 else 0) ∧
      (∀ b y, y ≠ buf → (y ∈ chains1 b ↔ y ∈ chains b)) := by
  subst hkey
  obtain ⟨hnotR, hwf1⟩ := rehash_tableWF new_idx hwf hmem
  have hmemR : ∀ b y, y ≠ buf →
      (y ∈ Function.update chains (hash (c.key buf))
        ((chains (hash (c.key buf))).erase buf) b ↔ y ∈ chains b) := by
    intro b y hy
    by_cases hb : b = hash (c.key buf)
    · subst hb
      rw [Function.update_same, List.mem_erase_of_ne hy]
    · rw [Function.update_noteq hb]
  have hmem1 : ∀ b y, y ≠ buf →
      (y ∈ Function.update
          (Function.update chains (hash (c.key buf)) ((chains (hash (c.key buf))).erase buf))
          (hash new_idx)
          (buf :: Function.update chains (hash (c.key buf))
            ((chains (hash (c.key buf))).erase buf) (hash new_idx)) b ↔ y ∈ chains b) := by
    intro b y hy
    by_cases hb : b = hash new_idx
    · subst hb
      rw [Function.update_same, List.mem_cons, ← hmemR _ y hy]
      simp [hy]
    · rw [Function.update_noteq hb, hmemR b y hy]
  refine ⟨_, hwf1, ?_, ?_, ?_, hmem1⟩
  · intro fuel hf
    obtain ⟨k, rfl⟩ : ∃ k, fuel = k + 1 := ⟨fuel - 1, by omega⟩
    unfold cache_lookup
    rw [rehash_head, rehash_key]
    simp [chain_find]
  · intro hne hothers fuel hf
    unfold cache_lookup
    refine chain_find_none _ none _ (hwf1 (hash (c.key buf))).1 ?_ fuel ?_
    · intro y hy
      rw [rehash_key]
      by_cases hyb : y = buf
      · subst hyb
        rw [Function.update_same]; exact hne
      · rw [Function.update_noteq hyb]
        exact hothers _ y ((hmem1 _ y hyb).mp hy) hyb
    · refine le_trans ?_ hf
      by_cases hb : hash (c.key buf) = hash new_idx
      · rw [← hb]
        simp only [Function.update_same, List.length_cons]
        rw [List.length_erase_of_mem hmem]
        have := List.length_pos_of_mem hmem
        omega
      · rw [Function.update_noteq hb, Function.update_same]
        exact (List.erase_sublist buf _).length_le
  · intro b
    by_cases hb : b = hash new_idx
    · subst hb
      rw [if_pos rfl]
      exact List.count_eq_one_of_mem (hwf1 _).2.1 (by simp)
    · rw [if_neg hb, Function.update_noteq hb]
      exact List.count_eq_zero_of_not_mem (hnotR b)

/-- An instance of amended C9: rehashing buffer `1` of `sampleTable` from index `0` to index `7`. -/
theorem rehash_law_witness :
    TableWF lowBits sampleTable sampleChains ∧ 1 ∈ sampleChains (lowBits 0) ∧
      sampleTable.key 1 = 0 ∧
      cache_lookup lowBits (cache_rehash lowBits sampleTable 1 7) 3 7 = some (some 1) ∧
      cache_lookup lowBits (cache_rehash lowBits sampleTable 1 7) 3 0 = some none ∧
      ∃ chains1 : Bucket → List Nat,
        TableWF lowBits (cache_rehash lowBits sampleTable 1 7) chains1 ∧
        (∀ fuel, 1 ≤ fuel →
          cache_lookup lowBits (cache_rehash lowBits sampleTable 1 7) fuel 7 =
            some (some 1)) ∧
        ((7 : Int) ≠ 0 → (∀ b, ∀ y ∈ sampleChains b, y ≠ 1 → sampleTable.key y ≠ 0) →
          ∀ fuel, (sampleChains (lowBits 0)).length ≤ fuel →
            cache_lookup lowBits (cache_rehash lowBits sampleTable 1 7) fuel 0 =
              some none) ∧
        (∀ b, (chains1 b).count 1 = if b = lowBits 7 then 1 else 0) ∧
        (∀ b y, y ≠ 1 → (y ∈ chains1 b ↔ y ∈ sampleChains b)) :=
  ⟨sampleTable_wf, by decide, by decide, by decide, by decide,
    rehash_law lowBits sampleTable sampleChains 1 0 7 sampleTable_wf (by decide)
      (by decide)⟩

/-! ## Preservation and round trips -/

/-- C13: hash-chain well-formedness (in every bucket `b` the chain from
`hash_table[b]` is finite and duplicate-free, its first entry has `hash_prev ==
NULL`, every entry with a successor is the `hash_prev` of that successor, every
entry in it hashes to `b`, so no entry is in two buckets) is preserved by
`insert_NAME_hash_table` of an entry not in the table and by
`remove_NAME_hash_table` of an entry in the table. -/
theorem hash_wellFormed_preserved (hash : Int → Bucket) (c : HashTable)
    (chains : Bucket → List Nat) (e : Nat) (hwf : TableWF hash c chains) :
    ((∀ b, e ∉ chains b) →
        TableWF hash (insert_NAME_hash_table hash c e)
          (Function.update chains (hash (c.key e)) (e :: chains (hash (c.key e))))) ∧
      (∀ b, e ∈ chains b →
        TableWF hash (remove_NAME_hash_table hash c e)
          (Function.update chains b ((chains b).erase e))) := by
  refine ⟨fun he => insert_tableWF hwf he, ?_⟩
  intro b he
  have hb : hash (c.key e) = b := (hwf b).2.2 e he
  subst hb
  exact remove_tableWF hwf he

/-- An instance of C13: inserting buffer `3` into `sampleTable` and removing
buffer `2` from it. -/
theorem hash_wellFormed_preserved_witness :
    TableWF lowBits sampleTable sampleChains ∧
      TableWF lowBits (insert_NAME_hash_table lowBits sampleTable 3)
        (Function.update sampleChains (lowBits (sampleTable.key 3))
          (3 :: sampleChains (lowBits (sampleTable.key 3)))) ∧
      TableWF lowBits (remove_NAME_hash_table lowBits sampleTable 2)
        (Function.update sampleChains 0 ((sampleChains 0).erase 2)) :=
  ⟨sampleTable_wf,
    (hash_wellFormed_preserved lowBits sampleTable sampleChains 3 sampleTable_wf).1
      (sampleChains_not_mem 3 (by decide) (by decide)),
    (hash_wellFormed_preserved lowBits sampleTable sampleChains 2 sampleTable_wf).2 0
      (by decide)⟩

/-- The head of a well-formed list has a predecessor among the members, whose
`next` is the head. -/
theorem wellFormed_head_prev {s : LinkList} {h : Nat} {t : List Nat}
    (hwf : WellFormed s (h :: t)) :
    ∃ p, p ∈ h :: t ∧ s.prev h = some p ∧ s.next p = some h := by
  obtain ⟨-, -, hl⟩ := hwf
  rcases List.eq_nil_or_concat t with rfl | ⟨L, p, ht⟩
  · simp only [Linked] at hl
    exact ⟨h, by simp, hl.2, hl.1⟩
  · rw [List.concat_eq_append] at ht
    subst ht
    rw [linked_concat] at hl
    exact ⟨p, by simp, hl.2.2, hl.2.1⟩

/-- Removing an entry both of whose links are `NULL` changes nothing. -/
theorem remove_eq_self_of_unlinked {s : LinkList} {e : Nat} (hn : s.next e = none)
    (hp : s.prev e = none) : remove_NAME_list s e = s := by
  have h1 : Function.update s.next e none = s.next := by
    rw [← hn]; exact Function.update_eq_self e s.next
  have h2 : Function.update s.prev e none = s.prev := by
    rw [← hp]; exact Function.update_eq_self e s.prev
  simp [remove_NAME_list, hn, hp, h1, h2]

/-- After `remove_NAME_list` both links of the entry are `NULL`, whatever the
list was. -/
theorem remove_links_null (s : LinkList) (e : Nat) :
    (remove_NAME_list s e).next e = none ∧ (remove_NAME_list s e).prev e = none := by
  simp [remove_NAME_list]

/-- C14: on a well-formed list `l` (empty or not) and an entry `e` not in it,
`insert_NAME_list` returns, and `remove_NAME_list` of `e` applied after it
restores the head pointer and the `next`/`prev` links of every original member
(indeed of every object other than `e`) to their values before the insert, and
leaves `e.prev` and `e.next` `NULL`. -/
theorem list_insert_remove_round_trip (s : LinkList) (l : List Nat) (e : Nat)
    (hwf : WellFormed s l) (he : e ∉ l) :
    ∃ s1, insert_NAME_list s e = some s1 ∧
      (remove_NAME_list s1 e).head = s.head ∧
      (∀ x ∈ l, (remove_NAME_list s1 e).next x = s.next x ∧
        (remove_NAME_list s1 e).prev x = s.prev x) ∧
      (∀ x, x ≠ e → (remove_NAME_list s1 e).next x = s.next x ∧
        (remove_NAME_list s1 e).prev x = s.prev x) ∧
      (remove_NAME_list s1 e).next e = none ∧ (remove_NAME_list s1 e).prev e = none ∧
      WellFormed (remove_NAME_list s1 e) l := by
  obtain ⟨s1, h1, hwf1⟩ := insert_wellFormed hwf he
  have hwf2 : WellFormed (remove_NAME_list s1 e) l := by
    have := remove_wellFormed hwf1 (show e ∈ l ++ [e] by simp)
    rwa [List.erase_append_right _ he, List.erase_cons_head, List.append_nil] at this
  have hothers : ∀ x, x ≠ e → (remove_NAME_list s1 e).next x = s.next x ∧
      (remove_NAME_list s1 e).prev x = s.prev x := by
    intro x hx
    cases l with
    | nil =>
      rw [insert_eq_of_empty e hwf] at h1
      cases h1
      rw [remove_eq_of_self (by simp) (by simp)]
      simp [Function.update_noteq hx]
    | cons h t =>
      obtain ⟨p, hpm, hpp, hpn⟩ := wellFormed_head_prev hwf
      have heh : h ≠ e := fun hc => he (by simp [hc])
      have hpe : p ≠ e := by rintro rfl; exact he hpm
      rw [insert_eq_of_head hwf.1 hpp heh] at h1
      cases h1
      rw [remove_eq_of_links (n := h) (p := p)
        (by simp [Function.update_noteq (Ne.symm hpe)])
        (by simp [Function.update_noteq (Ne.symm heh)]) heh hpe]
      constructor
      · by_cases hxp : x = p
        · subst hxp; simp [Function.update_noteq hx, hpn]
        · simp [Function.update_noteq hx, Function.update_noteq hxp]
      · by_cases hxh : x = h
        · subst hxh; simp [Function.update_noteq hx, hpp]
        · simp [Function.update_noteq hx, Function.update_noteq hxh]
  refine ⟨s1, h1, ?_, ?_, hothers, (remove_links_null s1 e).1, (remove_links_null s1 e).2,
    hwf2⟩
  · cases l with
    | nil => rw [show s.head = none from hwf]; exact hwf2
    | cons h t => rw [hwf.1]; exact hwf2.1
  · intro x hx
    exact hothers x (by rintro rfl; exact he hx)

/-- An instance of C14: inserting `7` into the list `1, 2, 3` and removing it. -/
theorem list_insert_remove_round_trip_witness :
    WellFormed tripleList [1, 2, 3] ∧ 7 ∉ [1, 2, 3] ∧
      ∃ s1, insert_NAME_list tripleList 7 = some s1 ∧
        (remove_NAME_list s1 7).head = tripleList.head ∧
        (∀ x ∈ [1, 2, 3], (remove_NAME_list s1 7).next x = tripleList.next x ∧
          (remove_NAME_list s1 7).prev x = tripleList.prev x) ∧
        (∀ x, x ≠ 7 → (remove_NAME_list s1 7).next x = tripleList.next x ∧
          (remove_NAME_list s1 7).prev x = tripleList.prev x) ∧
        (remove_NAME_list s1 7).next 7 = none ∧ (remove_NAME_list s1 7).prev 7 = none ∧
        WellFormed (remove_NAME_list s1 7) [1, 2, 3] :=
  ⟨by decide, by decide,
    list_insert_remove_round_trip tripleList [1, 2, 3] 7 (by decide) (by decide)⟩

/-- C16: `remove_NAME_list` leaves the entry's `prev` and `next` both `NULL`,
and a second `remove_NAME_list` of the same entry changes nothing: neither the
head pointer nor any link.  This holds for every member of every well-formed
list, and indeed for every entry of every list memory; removing an entry whose
links are `NULL` is a no-op. -/
theorem list_remove_idempotent (s : LinkList) (e : Nat) :
    (remove_NAME_list s e).next e = none ∧ (remove_NAME_list s e).prev e = none ∧
      remove_NAME_list (remove_NAME_list s e) e = remove_NAME_list s e ∧
      ∀ s0 : LinkList, s0.next e = none → s0.prev e = none →
        remove_NAME_list s0 e = s0 :=
  ⟨(remove_links_null s e).1, (remove_links_null s e).2,
    remove_eq_self_of_unlinked (remove_links_null s e).1 (remove_links_null s e).2,
    fun _ hn hp => remove_eq_self_of_unlinked hn hp⟩

/-- C15: on a well-formed table and an entry `e` in no chain,
`remove_NAME_hash_table` of `e` applied after `insert_NAME_hash_table` of `e`
(the key untouched in between) restores every bucket head and the
`hash_next`/`hash_prev` links of every original entry (indeed of every buffer
other than `e`) to their values before the insert. -/
theorem hash_insert_remove_round_trip (hash : Int → Bucket) (c : HashTable)
    (chains : Bucket → List Nat) (e : Nat) (hwf : TableWF hash c chains)
    (he : ∀ b, e ∉ chains b) :
    (remove_NAME_hash_table hash (insert_NAME_hash_table hash c e) e).hash_table =
        c.hash_table ∧
      (∀ b, ∀ x ∈ chains b,
        (remove_NAME_hash_table hash (insert_NAME_hash_table hash c e) e).hash_next x =
          c.hash_next x ∧
        (remove_NAME_hash_table hash (insert_NAME_hash_table hash c e) e).hash_prev x =
          c.hash_prev x) ∧
      (∀ x, x ≠ e →
        (remove_NAME_hash_table hash (insert_NAME_hash_table hash c e) e).hash_next x =
          c.hash_next x ∧
        (remove_NAME_hash_table hash (insert_NAME_hash_table hash c e) e).hash_prev x =
          c.hash_prev x) ∧
      (remove_NAME_hash_table hash (insert_NAME_hash_table hash c e) e).key = c.key ∧
      TableWF hash (remove_NAME_hash_table hash (insert_NAME_hash_table hash c e) e)
        chains := by
  have hhead : c.hash_table (hash (c.key e)) ≠ some e := fun hc =>
    he _ (tableWF_head_mem hwf hc)
  have hp1 : (insert_NAME_hash_table hash c e).hash_prev e = none := by
    rw [insert_hash_prev_apply, if_neg hhead, if_pos rfl]
  have hn1 : (insert_NAME_hash_table hash c e).hash_next e =
      c.hash_table (hash (c.key e)) := by
    rw [insert_hash_next_apply, if_pos rfl]
  have hothers : ∀ x, x ≠ e →
      (remove_NAME_hash_table hash (insert_NAME_hash_table hash c e) e).hash_next x =
        c.hash_next x ∧
      (remove_NAME_hash_table hash (insert_NAME_hash_table hash c e) e).hash_prev x =
        c.hash_prev x := by
    intro x hx
    constructor
    · rw [remove_hash_next_apply, if_neg hx, hp1, if_neg (by simp),
        insert_hash_next_apply, if_neg hx]
    · rw [remove_hash_prev_apply, if_neg hx, hn1, hp1]
      by_cases hxh : c.hash_table (hash (c.key e)) = some x
      · rw [if_pos hxh]
        have hch := (hwf (hash (c.key e))).1
        have hh := isChain_head hch
        rw [hxh] at hh
        cases hl : chains (hash (c.key e)) with
        | nil => rw [hl] at hh; simp at hh
        | cons y ys =>
          rw [hl] at hh hch
          obtain rfl : x = y := by simpa using hh
          exact hch.2.1.symm
      · rw [if_neg hxh, insert_hash_prev_apply, if_neg hxh, if_neg hx]
  refine ⟨?_, ?_, hothers, by rw [remove_key, insert_key], ?_⟩
  · funext b
    rw [remove_hash_table_apply, hp1, hn1, insert_key, insert_hash_table_apply]
    by_cases hb : b = hash (c.key e)
    · subst hb; simp
    · simp [hb]
  · intro b x hx
    exact hothers x (by rintro rfl; exact he b hx)
  · have h1 := insert_tableWF hwf he
    have h2 := remove_tableWF (c := insert_NAME_hash_table hash c e)
      (e := e) h1 (by rw [insert_key]; simp)
    rw [insert_key] at h2
    simpa using h2

/-- An instance of C15: inserting buffer `3` into `sampleTable` and removing it. -/
theorem hash_insert_remove_round_trip_witness :
    TableWF lowBits sampleTable sampleChains ∧ (∀ b, 3 ∉ sampleChains b) ∧
      (remove_NAME_hash_table lowBits (insert_NAME_hash_table lowBits sampleTable 3)
        3).hash_table = sampleTable.hash_table ∧
      TableWF lowBits
        (remove_NAME_hash_table lowBits (insert_NAME_hash_table lowBits sampleTable 3) 3)
        sampleChains :=
  ⟨sampleTable_wf, sampleChains_not_mem 3 (by decide) (by decide),
    (hash_insert_remove_round_trip lowBits sampleTable sampleChains 3 sampleTable_wf
      (sampleChains_not_mem 3 (by decide) (by decide))).1,
    (hash_insert_remove_round_trip lowBits sampleTable sampleChains 3 sampleTable_wf
      (sampleChains_not_mem 3 (by decide) (by decide))).2.2.2.2⟩

/-! ## The two toolkits on a shared buffer -/

theorem free_next_set_free_next (b : Nat → file_buffer) (a : Nat) (v : Ptr) (x : Nat) :
    (set_free_next b a v x).free_next = Function.update (fun y => (b y).free_next) a v x := by
  unfold set_free_next
  by_cases h : x = a
  · subst h; simp
  · simp [Function.update_noteq h]

theorem free_prev_set_free_next (b : Nat → file_buffer) (a : Nat) (v : Ptr) (x : Nat) :
    (set_free_next b a v x).free_prev = (b x).free_prev := by
  unfold set_free_next
  by_cases h : x = a
  · subst h; simp
  · simp [Function.update_noteq h]

theorem hash_next_set_free_next (b : Nat → file_buffer) (a : Nat) (v : Ptr) (x : Nat) :
    (set_free_next b a v x).hash_next = (b x).hash_next := by
  unfold set_free_next
  by_cases h : x = a
  · subst h; simp
  · simp [Function.update_noteq h]

theorem hash_prev_set_free_next (b : Nat → file_buffer) (a : Nat) (v : Ptr) (x : Nat) :
    (set_free_next b a v x).hash_prev = (b x).hash_prev := by
  unfold set_free_next
  by_cases h : x = a
  · subst h; simp
  · simp [Function.update_noteq h]

theorem index_set_free_next (b : Nat → file_buffer) (a : Nat) (v : Ptr) (x : Nat) :
    (set_free_next b a v x).index = (b x).index := by
  unfold set_free_next
  by_cases h : x = a
  · subst h; simp
  · simp [Function.update_noteq h]

theorem free_next_set_free_prev (b : Nat → file_buffer) (a : Nat) (v : Ptr) (x : Nat) :
    (set_free_prev b a v x).free_next = (b x).free_next := by
  unfold set_free_prev
  by_cases h : x = a
  · subst h; simp
  · simp [Function.update_noteq h]

theorem free_prev_set_free_prev (b : Nat → file_buffer) (a : Nat) (v : Ptr) (x : Nat) :
    (set_free_prev b a v x).free_prev = Function.update (fun y => (b y).free_prev) a v x := by
  unfold set_free_prev
  by_cases h : x = a
  · subst h; simp
  · simp [Function.update_noteq h]

theorem hash_next_set_free_prev (b : Nat → file_buffer) (a : Nat) (v : Ptr) (x : Nat) :
    (set_free_prev b a v x).hash_next = (b x).hash_next := by
  unfold set_free_prev
  by_cases h : x = a
  · subst h; simp
  · simp [Function.update_noteq h]

theorem hash_prev_set_free_prev (b : Nat → file_buffer) (a : Nat) (v : Ptr) (x : Nat) :
    (set_free_prev b a v x).hash_prev = (b x).hash_prev := by
  unfold set_free_prev
  by_cases h : x = a
  · subst h; simp
  · simp [Function.update_noteq h]

theorem index_set_free_prev (b : Nat → file_buffer) (a : Nat) (v : Ptr) (x : Nat) :
    (set_free_prev b a v x).index = (b x).index := by
  unfold set_free_prev
  by_cases h : x = a
  · subst h; simp
  · simp [Function.update_noteq h]

theorem free_next_set_hash_next (b : Nat → file_buffer) (a : Nat) (v : Ptr) (x : Nat) :
    (set_hash_next b a v x).free_next = (b x).free_next := by
  unfold set_hash_next
  by_cases h : x = a
  · subst h; simp
  · simp [Function.update_noteq h]

theorem free_prev_set_hash_next (b : Nat → file_buffer) (a : Nat) (v : Ptr) (x : Nat) :
    (set_hash_next b a v x).free_prev = (b x).free_prev := by
  unfold set_hash_next
  by_cases h : x = a
  · subst h; simp
  · simp [Function.update_noteq h]

theorem hash_next_set_hash_next (b : Nat → file_buffer) (a : Nat) (v : Ptr) (x : Nat) :
    (set_hash_next b a v x).hash_next = Function.update (fun y => (b y).hash_next) a v x := by
  unfold set_hash_next
  by_cases h : x = a
  · subst h; simp
  · simp [Function.update_noteq h]

theorem hash_prev_set_hash_next (b : Nat → file_buffer) (a : Nat) (v : Ptr) (x : Nat) :
    (set_hash_next b a v x).hash_prev = (b x).hash_prev := by
  unfold set_hash_next
  by_cases h : x = a
  · subst h; simp
  · simp [Function.update_noteq h]

theorem index_set_hash_next (b : Nat → file_buffer) (a : Nat) (v : Ptr) (x : Nat) :
    (set_hash_next b a v x).index = (b x).index := by
  unfold set_hash_next
  by_cases h : x = a
  · subst h; simp
  · simp [Function.update_noteq h]

theorem free_next_set_hash_prev (b : Nat → file_buffer) (a : Nat) (v : Ptr) (x : Nat) :
    (set_hash_prev b a v x).free_next = (b x).free_next := by
  unfold set_hash_prev
  by_cases h : x = a
  · subst h; simp
  · simp [Function.update_noteq h]

theorem free_prev_set_hash_prev (b : Nat → file_buffer) (a : Nat) (v : Ptr) (x : Nat) :
    (set_hash_prev b a v x).free_prev = (b x).free_prev := by
  unfold set_hash_prev
  by_cases h : x = a
  · subst h; simp
  · simp [Function.update_noteq h]

theorem hash_next_set_hash_prev (b : Nat → file_buffer) (a : Nat) (v : Ptr) (x : Nat) :
    (set_hash_prev b a v x).hash_next = (b x).hash_next := by
  unfold set_hash_prev
  by_cases h : x = a
  · subst h; simp
  · simp [Function.update_noteq h]

theorem hash_prev_set_hash_prev (b : Nat → file_buffer) (a : Nat) (v : Ptr) (x : Nat) :
    (set_hash_prev b a v x).hash_prev = Function.update (fun y => (b y).hash_prev) a v x := by
  unfold set_hash_prev
  by_cases h : x = a
  · subst h; simp
  · simp [Function.update_noteq h]

theorem index_set_hash_prev (b : Nat → file_buffer) (a : Nat) (v : Ptr) (x : Nat) :
    (set_hash_prev b a v x).index = (b x).index := by
  unfold set_hash_prev
  by_cases h : x = a
  · subst h; simp
  · simp [Function.update_noteq h]

theorem SameButFree.sameFree (b : file_buffer) : SameButFree b b := rfl

theorem SameButFree.thenFree {b0 b1 b2 : file_buffer} (h1 : SameButFree b0 b1)
    (h2 : SameButFree b1 b2) : SameButFree b0 b2 := by
  unfold SameButFree at *
  rw [h2, h1]

theorem SameButHash.sameHash (b : file_buffer) : SameButHash b b := rfl

theorem SameButHash.thenHash {b0 b1 b2 : file_buffer} (h1 : SameButHash b0 b1)
    (h2 : SameButHash b1 b2) : SameButHash b0 b2 := by
  unfold SameButHash at *
  rw [h2, h1]

theorem sameButFree_set_free_next (b : Nat → file_buffer) (a : Nat) (v : Ptr) (x : Nat) :
    SameButFree (b x) (set_free_next b a v x) := by
  unfold set_free_next
  by_cases h : x = a
  · subst h; simp [SameButFree]
  · simp [Function.update_noteq h, SameButFree]

theorem sameButFree_set_free_prev (b : Nat → file_buffer) (a : Nat) (v : Ptr) (x : Nat) :
    SameButFree (b x) (set_free_prev b a v x) := by
  unfold set_free_prev
  by_cases h : x = a
  · subst h; simp [SameButFree]
  · simp [Function.update_noteq h, SameButFree]

theorem sameButHash_set_hash_next (b : Nat → file_buffer) (a : Nat) (v : Ptr) (x : Nat) :
    SameButHash (b x) (set_hash_next b a v x) := by
  unfold set_hash_next
  by_cases h : x = a
  · subst h; simp [SameButHash]
  · simp [Function.update_noteq h, SameButHash]

theorem sameButHash_set_hash_prev (b : Nat → file_buffer) (a : Nat) (v : Ptr) (x : Nat) :
    SameButHash (b x) (set_hash_prev b a v x) := by
  unfold set_hash_prev
  by_cases h : x = a
  · subst h; simp [SameButHash]
  · simp [Function.update_noteq h, SameButHash]

/-! ### The generated functions refine the generic ones -/

/-- On the freelist view `insert_free_list` is `insert_NAME_list`. -/
theorem freeView_insert_free_list (m : CacheMem) (e : Nat) :
    (insert_free_list m e).map freeView = insert_NAME_list (freeView m) e := by
  unfold insert_free_list insert_NAME_list freeView
  cases hh : m.container.free_list with
  | none =>
    simp [free_next_set_free_next, free_prev_set_free_next, free_next_set_free_prev,
      free_prev_set_free_prev]
  | some l =>
    simp only [free_next_set_free_next, free_prev_set_free_next, free_next_set_free_prev,
      free_prev_set_free_prev]
    cases hp : Function.update (fun y => (m.buffers y).free_prev) e (m.buffers l).free_prev l with
    | none => simp
    | some p =>
      simp [free_next_set_free_next, free_prev_set_free_next, free_next_set_free_prev,
        free_prev_set_free_prev, hh]

/-- On the freelist view `remove_free_list` is `remove_NAME_list`. -/
theorem freeView_remove_free_list (m : CacheMem) (e : Nat) :
    freeView (remove_free_list m e) = remove_NAME_list (freeView m) e := by
  unfold remove_free_list remove_NAME_list freeView
  by_cases hself : (m.buffers e).free_prev = some e ∧ (m.buffers e).free_next = some e
  · simp [hself, free_next_set_free_next, free_prev_set_free_next, free_next_set_free_prev,
      free_prev_set_free_prev]
  · simp only [hself, if_false]
    cases hp : (m.buffers e).free_prev with
    | none =>
      simp [free_next_set_free_next, free_prev_set_free_next, free_next_set_free_prev,
        free_prev_set_free_prev]
    | some p =>
      cases hn : (m.buffers e).free_next with
      | none =>
        simp [free_next_set_free_next, free_prev_set_free_next, free_next_set_free_prev,
          free_prev_set_free_prev]
      | some n =>
        simp only [free_next_set_free_next, free_prev_set_free_next,
          free_next_set_free_prev, free_prev_set_free_prev]
        cases hq : Function.update (fun y => (m.buffers y).free_prev) n (some p) e with
        | none =>
          simp [free_next_set_free_next, free_prev_set_free_next, free_next_set_free_prev,
            free_prev_set_free_prev, hn]
        | some q =>
          simp [free_next_set_free_next, free_prev_set_free_next, free_next_set_free_prev,
            free_prev_set_free_prev, hn]

/-- On the hash-table view `insert_cache_hash_table` is `insert_NAME_hash_table`. -/
theorem hashView_insert_cache_hash_table (hash : Int → Bucket) (m : CacheMem) (e : Nat) :
    hashView (insert_cache_hash_table hash m e) =
      insert_NAME_hash_table hash (hashView m) e := by
  unfold insert_cache_hash_table insert_NAME_hash_table hashView
  simp only [hash_next_set_hash_next, hash_next_set_hash_prev, Function.update_same]
  cases hh : m.container.hash_table (hash (m.buffers e).index) with
  | none =>
    simp [hash_next_set_hash_next, hash_prev_set_hash_next, hash_next_set_hash_prev,
      hash_prev_set_hash_prev, index_set_hash_next, index_set_hash_prev]
  | some n =>
    simp [hash_next_set_hash_next, hash_prev_set_hash_next, hash_next_set_hash_prev,
      hash_prev_set_hash_prev, index_set_hash_next, index_set_hash_prev]

/-- On the hash-table view `remove_cache_hash_table` is `remove_NAME_hash_table`. -/
theorem hashView_remove_cache_hash_table (hash : Int → Bucket) (m : CacheMem) (e : Nat) :
    hashView (remove_cache_hash_table hash m e) =
      remove_NAME_hash_table hash (hashView m) e := by
  unfold remove_cache_hash_table remove_NAME_hash_table hashView
  cases hp : (m.buffers e).hash_prev with
  | none =>
    simp only []
    cases hn : (m.buffers e).hash_next with
    | none =>
      simp [hash_next_set_hash_next, hash_prev_set_hash_next, hash_next_set_hash_prev,
        hash_prev_set_hash_prev, index_set_hash_next, index_set_hash_prev, hp, hn]
    | some n =>
      simp [hash_next_set_hash_next, hash_prev_set_hash_next, hash_next_set_hash_prev,
        hash_prev_set_hash_prev, index_set_hash_next, index_set_hash_prev, hp, hn]
  | some p =>
    simp only [hash_next_set_hash_next, hash_prev_set_hash_next]
    cases hn : Function.update (fun y => (m.buffers y).hash_next) p (m.buffers e).hash_next e with
    | none =>
      simp [hash_next_set_hash_next, hash_prev_set_hash_next, hash_next_set_hash_prev,
        hash_prev_set_hash_prev, index_set_hash_next, index_set_hash_prev, hp, hn]
    | some n =>
      simp [hash_next_set_hash_next, hash_prev_set_hash_next, hash_next_set_hash_prev,
        hash_prev_set_hash_prev, index_set_hash_next, index_set_hash_prev, hp, hn]

/-! ### Frames of the generated functions -/

theorem insert_free_list_frame {m m1 : CacheMem} {e : Nat}
    (h : insert_free_list m e = some m1) : FreeFrame m m1 := by
  unfold insert_free_list at h
  cases hh : m.container.free_list with
  | none =>
    rw [hh] at h
    simp only [Option.some.injEq] at h
    subst h
    refine ⟨rfl, fun a => ?_⟩
    exact (sameButFree_set_free_next _ _ _ a).thenFree (sameButFree_set_free_prev _ _ _ a)
  | some l =>
    rw [hh] at h
    simp only at h
    split at h
    · cases h
    · simp only [Option.some.injEq] at h
      subst h
      refine ⟨rfl, fun a => ?_⟩
      exact (((sameButFree_set_free_next _ _ _ a).thenFree
        (sameButFree_set_free_prev _ _ _ a)).thenFree
        (sameButFree_set_free_next _ _ _ a)).thenFree (sameButFree_set_free_prev _ _ _ a)

theorem remove_free_list_frame (m : CacheMem) (e : Nat) :
    FreeFrame m (remove_free_list m e) := by
  unfold remove_free_list
  have key : ∀ m1 : CacheMem, FreeFrame m m1 →
      FreeFrame m ⟨m1.container, set_free_prev (set_free_next m1.buffers e none) e
        (set_free_next m1.buffers e none e).free_next⟩ := by
    intro m1 hm1
    refine ⟨hm1.1, fun a => ?_⟩
    exact ((hm1.2 a).thenFree (sameButFree_set_free_next _ _ _ a)).thenFree
      (sameButFree_set_free_prev _ _ _ a)
  apply key
  split
  · exact ⟨rfl, fun a => SameButFree.sameFree _⟩
  · split
    · refine ⟨rfl, fun a => ?_⟩
      simp only
      split
      · exact (sameButFree_set_free_prev _ _ _ a).thenFree (sameButFree_set_free_next _ _ _ a)
      · exact sameButFree_set_free_prev _ _ _ a
    · exact ⟨rfl, fun a => SameButFree.sameFree _⟩

theorem insert_cache_hash_table_frame (hash : Int → Bucket) (m : CacheMem) (e : Nat) :
    HashFrame m (insert_cache_hash_table hash m e) := by
  unfold insert_cache_hash_table
  refine ⟨rfl, fun a => ?_⟩
  simp only
  split
  · exact ((sameButHash_set_hash_next _ _ _ a).thenHash
      (sameButHash_set_hash_prev _ _ _ a)).thenHash (sameButHash_set_hash_prev _ _ _ a)
  · exact (sameButHash_set_hash_next _ _ _ a).thenHash (sameButHash_set_hash_prev _ _ _ a)

theorem remove_cache_hash_table_frame (hash : Int → Bucket) (m : CacheMem) (e : Nat) :
    HashFrame m (remove_cache_hash_table hash m e) := by
  unfold remove_cache_hash_table
  have key : ∀ m1 : CacheMem, HashFrame m m1 →
      HashFrame m ⟨m1.container, set_hash_prev
        (set_hash_next
          (match (m1.buffers e).hash_next with
            | some n => set_hash_prev m1.buffers n (m1.buffers e).hash_prev
            | none => m1.buffers) e none) e
        (set_hash_next
          (match (m1.buffers e).hash_next with
            | some n => set_hash_prev m1.buffers n (m1.buffers e).hash_prev
            | none => m1.buffers) e none e).hash_next⟩ := by
    intro m1 hm1
    refine ⟨hm1.1, fun a => ?_⟩
    simp only
    split
    · exact (((hm1.2 a).thenHash (sameButHash_set_hash_prev _ _ _ a)).thenHash
        (sameButHash_set_hash_next _ _ _ a)).thenHash (sameButHash_set_hash_prev _ _ _ a)
    · exact ((hm1.2 a).thenHash (sameButHash_set_hash_next _ _ _ a)).thenHash
        (sameButHash_set_hash_prev _ _ _ a)
  apply key
  split
  · exact ⟨rfl, fun a => sameButHash_set_hash_next _ _ _ a⟩
  · exact ⟨rfl, fun a => SameButHash.sameHash _⟩

theorem sameButFree_fields {b b1 : file_buffer} (h : SameButFree b b1) :
    b1.hash_next = b.hash_next ∧ b1.hash_prev = b.hash_prev ∧ b1.index = b.index ∧
      b1.sequence = b.sequence ∧ b1.used = b.used ∧ b1.fragment = b.fragment ∧
      b1.error = b.error ∧ b1.noD = b.noD := by
  unfold SameButFree at h
  rw [h]
  simp

theorem sameButHash_fields {b b1 : file_buffer} (h : SameButHash b b1) :
    b1.free_next = b.free_next ∧ b1.free_prev = b.free_prev ∧ b1.index = b.index ∧
      b1.sequence = b.sequence ∧ b1.used = b.used ∧ b1.fragment = b.fragment ∧
      b1.error = b.error ∧ b1.noD = b.noD := by
  unfold SameButHash at h
  rw [h]
  simp

/-- A change confined to the freelist leaves the hash table view as it was. -/
theorem hashView_of_freeFrame {m m1 : CacheMem} (h : FreeFrame m m1) :
    hashView m1 = hashView m := by
  have hc : m1.container.hash_table = m.container.hash_table := by rw [h.1]
  unfold hashView
  rw [hc]
  congr 1
  · funext a; exact (sameButFree_fields (h.2 a)).1
  · funext a; exact (sameButFree_fields (h.2 a)).2.1
  · funext a; exact (sameButFree_fields (h.2 a)).2.2.1

/-- A change confined to the hash table leaves the freelist view as it was. -/
theorem freeView_of_hashFrame {m m1 : CacheMem} (h : HashFrame m m1) :
    freeView m1 = freeView m := by
  have hc : m1.container.free_list = m.container.free_list := by rw [h.1]
  unfold freeView
  rw [hc]
  congr 1
  · funext a; exact (sameButHash_fields (h.2 a)).1
  · funext a; exact (sameButHash_fields (h.2 a)).2.1

theorem keepsHash_of_freeFrame {m m1 : CacheMem} (h : FreeFrame m m1) : KeepsHash m m1 :=
  ⟨by rw [h.1], fun a => sameButFree_fields (h.2 a)⟩

theorem keepsFree_of_hashFrame {m m1 : CacheMem} (h : HashFrame m m1) : KeepsFree m m1 :=
  ⟨by rw [h.1], fun a =>
    ⟨(sameButHash_fields (h.2 a)).1, (sameButHash_fields (h.2 a)).2.1⟩⟩

theorem sampleCache_hash_wf : TableWF lowBits (hashView sampleCache) sampleChains :=
  sampleTable_wf

/-- C17: the two toolkits are independent on a shared buffer.
`insert_free_list` and `remove_free_list` change only `free_next`/`free_prev`
fields and the freelist head: the bucket heads and the `hash_next`,
`hash_prev`, `index`, `sequence` and flag fields of every buffer stay as they
were.  `insert_cache_hash_table` and `remove_cache_hash_table` change only
`hash_next`/`hash_prev` fields and bucket heads: every `free_next`/`free_prev`
and the freelist head stay as they were.  Hence the freelist operations keep
the hash table well formed with the same chains, the hash operations keep the
freelist well formed with the same members, and a buffer that is on the
freelist and in a hash chain at once can be removed from either structure,
which loses exactly that buffer while the other keeps it. -/
theorem toolkits_independent (hash : Int → Bucket) (m : CacheMem) (e : Nat) :
    (∀ m1, insert_free_list m e = some m1 → FreeFrame m m1 ∧ KeepsHash m m1) ∧
      (FreeFrame m (remove_free_list m e) ∧ KeepsHash m (remove_free_list m e)) ∧
      (HashFrame m (insert_cache_hash_table hash m e) ∧
        KeepsFree m (insert_cache_hash_table hash m e)) ∧
      (HashFrame m (remove_cache_hash_table hash m e) ∧
        KeepsFree m (remove_cache_hash_table hash m e)) ∧
      (∀ chains, TableWF hash (hashView m) chains →
        (∀ m1, insert_free_list m e = some m1 → TableWF hash (hashView m1) chains) ∧
        TableWF hash (hashView (remove_free_list m e)) chains) ∧
      (∀ l, WellFormed (freeView m) l →
        WellFormed (freeView (insert_cache_hash_table hash m e)) l ∧
        WellFormed (freeView (remove_cache_hash_table hash m e)) l) ∧
      (∀ l chains, WellFormed (freeView m) l → TableWF hash (hashView m) chains →
        e ∈ l → e ∈ chains (hash (m.buffers e).index) →
        WellFormed (freeView (remove_free_list m e)) (l.erase e) ∧
        TableWF hash (hashView (remove_free_list m e)) chains ∧
        TableWF hash (hashView (remove_cache_hash_table hash m e))
          (Function.update chains (hash (m.buffers e).index)
            ((chains (hash (m.buffers e).index)).erase e)) ∧
        WellFormed (freeView (remove_cache_hash_table hash m e)) l) := by
  have hrf := remove_free_list_frame m e
  have hih := insert_cache_hash_table_frame hash m e
  have hrh := remove_cache_hash_table_frame hash m e
  refine ⟨fun m1 h => ⟨insert_free_list_frame h, keepsHash_of_freeFrame
      (insert_free_list_frame h)⟩,
    ⟨hrf, keepsHash_of_freeFrame hrf⟩, ⟨hih, keepsFree_of_hashFrame hih⟩,
    ⟨hrh, keepsFree_of_hashFrame hrh⟩, ?_, ?_, ?_⟩
  · intro chains hwf
    refine ⟨fun m1 h => ?_, ?_⟩
    · rw [hashView_of_freeFrame (insert_free_list_frame h)]; exact hwf
    · rw [hashView_of_freeFrame hrf]; exact hwf
  · intro l hwf
    refine ⟨?_, ?_⟩
    · rw [freeView_of_hashFrame hih]; exact hwf
    · rw [freeView_of_hashFrame hrh]; exact hwf
  · intro l chains hl hc hel hec
    refine ⟨?_, ?_, ?_, ?_⟩
    · rw [freeView_remove_free_list]; exact remove_wellFormed hl hel
    · rw [hashView_of_freeFrame hrf]; exact hc
    · rw [hashView_remove_cache_hash_table]; exact remove_tableWF hc hec
    · rw [freeView_of_hashFrame hrh]; exact hl

/-- An instance of C17: buffer `2` of `sampleCache` is on the freelist `2, 3`
and in the chain `1, 2` of bucket `0`. -/
theorem toolkits_independent_witness :
    WellFormed (freeView sampleCache) [2, 3] ∧
      TableWF lowBits (hashView sampleCache) sampleChains ∧ 2 ∈ [2, 3] ∧
      2 ∈ sampleChains (lowBits (sampleCache.buffers 2).index) ∧
      WellFormed (freeView (remove_free_list sampleCache 2)) ([2, 3].erase 2) ∧
      TableWF lowBits (hashView (remove_free_list sampleCache 2)) sampleChains ∧
      TableWF lowBits (hashView (remove_cache_hash_table lowBits sampleCache 2))
        (Function.update sampleChains (lowBits (sampleCache.buffers 2).index)
          ((sampleChains (lowBits (sampleCache.buffers 2).index)).erase 2)) ∧
      WellFormed (freeView (remove_cache_hash_table lowBits sampleCache 2)) [2, 3] :=
  ⟨by decide, sampleCache_hash_wf, by decide, by decide,
    (toolkits_independent lowBits sampleCache 2).2.2.2.2.2.2 [2, 3] sampleChains (by decide)
      sampleCache_hash_wf (by decide) (by decide)⟩

/-! ## Properties of the bounded queue -/

theorem wrap_int_eq {x : Int} (h1 : -2147483648 ≤ x) (h2 : x ≤ 2147483647) :
    wrap_int x = x := by
  unfold wrap_int
  omega

/-- On a slot index of a valid queue, advancing is `+ 1` modulo the number of
slots; nothing overflows. -/
theorem queue_advance_eq {q : queue} {c : Int} (h0 : 0 ≤ c) (h1 : c < q.size)
    (hs : q.size ≤ 2147483647) : queue_advance q c = (c + 1) % q.size := by
  unfold queue_advance
  rw [wrap_int_eq (by omega) (by omega), Int.tmod_eq_emod (by omega) (by omega)]

theorem int_mod_shift_ne {r i j n : Int} (h0 : 0 ≤ i) (hi : i < j) (hj : j < n) :
    (r + i) % n ≠ (r + j) % n := by
  intro h
  rw [Int.emod_eq_emod_iff_emod_sub_eq_zero] at h
  have hd : n ∣ (r + i - (r + j)) := Int.dvd_of_emod_eq_zero h
  have hz := Int.eq_zero_of_abs_lt_dvd hd (abs_lt.mpr ⟨by omega, by omega⟩)
  omega

/-- The derived count of a queue is the number of items it holds. -/
theorem queue_count_of_holds {q : queue} {L : List Ptr} (h : Holds q L) :
    queue_count q = (L.length : Int) := by
  obtain ⟨hr0, hr, -, hlen, hw, -⟩ := h
  unfold queue_count
  by_cases hlt : q.readp + (L.length : Int) < q.size
  · rw [Int.emod_eq_of_lt (by omega) hlt] at hw
    rw [if_pos (by omega)]; omega
  · rw [Int.emod_eq_sub_self_emod, Int.emod_eq_of_lt (by omega) (by omega)] at hw
    rw [if_neg (by omega)]; omega

/-- A put on a queue with two free slots at least succeeds and appends the item. -/
theorem queue_put_holds {q : queue} {L : List Ptr} (item : Ptr) (h : Holds q L)
    (hlt : (L.length : Int) + 1 < q.size) :
    ∃ q1, queue_put q item = some q1 ∧ Holds q1 (L ++ [item]) ∧ q1.size = q.size := by
  obtain ⟨hr0, hr, hs, hlen, hw, hd⟩ := h
  have hw0 : 0 ≤ q.writep := by rw [hw]; exact Int.emod_nonneg _ (by omega)
  have hw1 : q.writep < q.size := by rw [hw]; exact Int.emod_lt_of_pos _ (by omega)
  have hadv : queue_advance q q.writep = (q.readp + ((L.length : Int) + 1)) % q.size := by
    rw [queue_advance_eq hw0 hw1 hs, hw, Int.emod_add_emod, Int.add_assoc]
  have hfull : queue_advance q q.writep ≠ q.readp := by
    rw [hadv]
    have := int_mod_shift_ne (r := q.readp) (i := 0) (j := (L.length : Int) + 1)
      (n := q.size) (le_refl 0) (by omega) hlt
    rw [Int.add_zero, Int.emod_eq_of_lt hr0 hr] at this
    exact fun hc => this hc.symm
  refine ⟨{ q with data := Function.update q.data q.writep item,
                   writep := queue_advance q q.writep }, ?_,
    ⟨hr0, hr, hs, ?_, ?_, ?_⟩, rfl⟩
  · simp [queue_put, hfull]
  · show ((L ++ [item]).length : Int) < q.size
    simp only [List.length_append, List.length_singleton]; push_cast; omega
  · show queue_advance q q.writep = (q.readp + ((L ++ [item]).length : Int)) % q.size
    rw [hadv]; simp
  · intro i hi
    show (L ++ [item])[i]? =
      some (Function.update q.data q.writep item ((q.readp + (i : Int)) % q.size))
    simp only [List.length_append, List.length_singleton] at hi
    by_cases hil : i < L.length
    · rw [List.getElem?_append_left hil, hd i hil]
      have hne : (q.readp + (i : Int)) % q.size ≠ q.writep := by
        rw [hw]
        exact int_mod_shift_ne (by omega) (by omega) hlen
      rw [Function.update_noteq hne]
    · have hie : i = L.length := by omega
      subst hie
      rw [← hw, Function.update_same]
      simp

/-- A get on a queue that holds `x` first succeeds and returns `x`. -/
theorem queue_get_holds {q : queue} {x : Ptr} {L : List Ptr} (h : Holds q (x :: L)) :
    ∃ q1, queue_get q = some (x, q1) ∧ Holds q1 L ∧ q1.size = q.size := by
  obtain ⟨hr0, hr, hs, hlen, hw, hd⟩ := h
  simp only [List.length_cons, Nat.cast_add, Nat.cast_one] at hlen hw
  have hx : q.data q.readp = x := by
    have := hd 0 (by simp)
    simp only [List.getElem?_cons_zero, Nat.cast_zero, Int.add_zero,
      Int.emod_eq_of_lt hr0 hr, Option.some.injEq] at this
    exact this.symm
  have hne : q.readp ≠ q.writep := by
    rw [hw]
    have := int_mod_shift_ne (r := q.readp) (i := 0) (j := (L.length : Int) + 1)
      (n := q.size) (le_refl 0) (by omega) hlen
    rw [Int.add_zero, Int.emod_eq_of_lt hr0 hr] at this
    exact this
  have hadv : queue_advance q q.readp = (q.readp + 1) % q.size :=
    queue_advance_eq hr0 hr hs
  refine ⟨{ q with readp := queue_advance q q.readp }, ?_,
    ⟨?_, ?_, hs, ?_, ?_, ?_⟩, rfl⟩
  · simp [queue_get, hne, hx]
  · show 0 ≤ queue_advance q q.readp
    rw [hadv]; exact Int.emod_nonneg _ (by omega)
  · show queue_advance q q.readp < q.size
    rw [hadv]; exact Int.emod_lt_of_pos _ (by omega)
  · show (L.length : Int) < q.size
    omega
  · show q.writep = (queue_advance q q.readp + (L.length : Int)) % q.size
    rw [hw, hadv, Int.emod_add_emod]
    congr 1; omega
  · intro i hi
    show L[i]? = some (q.data ((queue_advance q q.readp + (i : Int)) % q.size))
    have := hd (i + 1) (by simpa using hi)
    simp only [List.getElem?_cons_succ] at this
    rw [this, hadv, Int.emod_add_emod]
    congr 3; push_cast; omega

theorem queue_count_bounds {q : queue} {L : List Ptr} (h : Holds q L) :
    0 ≤ queue_count q ∧ queue_count q ≤ q.size - 1 := by
  rw [queue_count_of_holds h]
  have := h.2.2.2.1
  omega

/-- As many gets as the queue holds items return the items, oldest first. -/
theorem runQueue_gets (L : List Ptr) :
    ∀ q : queue, Holds q L →
      ∃ states, runQueue q (List.replicate L.length QueueOp.get) = some (L, states) ∧
        ∀ st ∈ states, 0 ≤ queue_count st ∧ queue_count st ≤ q.size - 1 := by
  induction L with
  | nil =>
    intro q h
    refine ⟨[q], rfl, ?_⟩
    intro st hst
    obtain rfl : st = q := by simpa using hst
    exact queue_count_bounds h
  | cons x L ih =>
    intro q h
    obtain ⟨q1, hget, h1, hsize⟩ := queue_get_holds h
    obtain ⟨states, hrun, hstates⟩ := ih q1 h1
    refine ⟨q :: states, ?_, ?_⟩
    · simp [List.replicate_succ, runQueue, hget, hrun]
    · intro st hst
      rcases List.mem_cons.mp hst with rfl | hst
      · exact queue_count_bounds h
      · rw [← hsize]; exact hstates st hst

/-- Puts that fit in the queue all succeed and append their items in order. -/
theorem runQueue_puts (items : List Ptr) :
    ∀ (q : queue) (L : List Ptr), Holds q L →
      (L.length : Int) + (items.length : Int) ≤ q.size - 1 →
      ∃ q1 states1, Holds q1 (L ++ items) ∧ q1.size = q.size ∧
        (∀ st ∈ states1, 0 ≤ queue_count st ∧ queue_count st ≤ q.size - 1) ∧
        ∀ rest out states, runQueue q1 rest = some (out, states) →
          runQueue q (items.map QueueOp.put ++ rest) = some (out, states1 ++ states) := by
  induction items with
  | nil =>
    intro q L h _
    exact ⟨q, [], by simpa using h, rfl, by simp, fun rest out states hr => by simpa using hr⟩
  | cons item items ih =>
    intro q L h hle
    simp only [List.length_cons, Nat.cast_add, Nat.cast_one] at hle
    obtain ⟨q', hput, h', hsize'⟩ := queue_put_holds item h (by omega)
    obtain ⟨q1, states1, h1, hsize1, hstates1, hrun1⟩ :=
      ih q' (L ++ [item]) h' (by
        simp only [List.length_append, List.length_singleton, Nat.cast_add, Nat.cast_one]
        rw [hsize']; omega)
    refine ⟨q1, q :: states1, by simpa using h1, by rw [hsize1, hsize'], ?_, ?_⟩
    · intro st hst
      rcases List.mem_cons.mp hst with rfl | hst
      · exact queue_count_bounds h
      · rw [← hsize']; exact hstates1 st hst
    · intro rest out states hr
      simp [runQueue, hput, hrun1 rest out states hr]

/-- C12 (FIFO law): on a valid empty bounded queue (the cursors equal, a slot
index; the capacity is `size - 1`, one slot being kept free), `n` puts `P1..Pn`
with `n` not above the capacity, followed by `n` gets, all run without
blocking; the gets return `P1..Pn` in exactly that order, and in every state
the queue goes through the number of queued items is between `0` and the
capacity. -/
theorem queue_fifo_law (q : queue) (items : List Ptr) (hr0 : 0 ≤ q.readp)
    (hr : q.readp < q.size) (hs : q.size ≤ 2147483647) (hw : q.writep = q.readp)
    (hn : (items.length : Int) ≤ q.size - 1) :
    ∃ states,
      runQueue q (items.map QueueOp.put ++ List.replicate items.length QueueOp.get) =
        some (items, states) ∧
      ∀ st ∈ states, 0 ≤ queue_count st ∧ queue_count st ≤ q.size - 1 := by
  have h0 : Holds q [] :=
    ⟨hr0, hr, hs, by simp; omega, by simp [hw, Int.emod_eq_of_lt hr0 hr], by simp⟩
  obtain ⟨q1, states1, h1, hsize1, hstates1, hrun1⟩ :=
    runQueue_puts items q [] h0 (by simpa using hn)
  rw [List.nil_append] at h1
  obtain ⟨states2, hrun2, hstates2⟩ := runQueue_gets items q1 h1
  refine ⟨states1 ++ states2, hrun1 _ _ _ hrun2, ?_⟩
  intro st hst
  rcases List.mem_append.mp hst with hst | hst
  · exact hstates1 st hst
  · rw [← hsize1]; exact hstates2 st hst

/-- An instance of C12: four puts into `queue_init 4` and four gets; a fifth put
after the four would block. -/
theorem queue_fifo_law_witness :
    0 ≤ (queue_init 4).readp ∧ (queue_init 4).readp < (queue_init 4).size ∧
      (queue_init 4).size ≤ 2147483647 ∧ (queue_init 4).writep = (queue_init 4).readp ∧
      (([some 10, some 20, some 30, some 40] : List Ptr).length : Int) ≤
        (queue_init 4).size - 1 ∧
      (∃ states,
        runQueue (queue_init 4)
            ([some 10, some 20, some 30, some 40].map QueueOp.put ++
              List.replicate [some 10, some 20, some 30, some 40].length QueueOp.get) =
          some ([some 10, some 20, some 30, some 40], states) ∧
        ∀ st ∈ states, 0 ≤ queue_count st ∧ queue_count st ≤ (queue_init 4).size - 1) ∧
      (runQueue (queue_init 4)
        ([some 10, some 20, some 30, some 40, some 50].map QueueOp.put)).isNone = true :=
  ⟨by decide, by decide, by decide, rfl, by decide,
    queue_fifo_law (queue_init 4) [some 10, some 20, some 30, some 40] (by decide)
      (by decide) (by decide) rfl (by decide),
    by decide⟩

/-! ## Properties of the sequencing queue -/

theorem consecutive_congr {key key1 : Nat → Int} (l : List Nat) (hk : key1 = key) :
    ∀ k, Consecutive key k l → Consecutive key1 k l := by
  subst hk
  exact fun _ h => h

theorem table_withTable (m : SeqMem) (t : HashTable) : (m.withTable t).table = t := rfl

theorem expected_withTable (m : SeqMem) (t : HashTable) (f : Bool) :
    (m.withTable t).expected f = m.expected f := rfl

theorem substream_withTable (m : SeqMem) (t : HashTable) (e : Nat) :
    (m.withTable t).substream e = m.substream e := rfl

end Sasquatch
